import Mathlib

/-!
# vkvk: free-fermion vector-vector correlator on a finite lattice

Shallow embedding of `src/vkvk.cpp`.

* `double` arithmetic is modelled by exact arithmetic in a field `α`
  (instantiated to `ℝ` in the theorems).  The `<cmath>` primitives `sin`,
  `cos` and the constant `M_PI` are collected in a `Trig α` record, which the
  theorems instantiate to `Real.sin`, `Real.cos`, `Real.pi`.
* `int` / `int64_t` quantities are modelled by `Nat` / `Int`.  The loop bound `T*(T+1)/2`
  of the kernel, a 32-bit `int` computation, is modelled with wrap-around (`loopBound`);
  the index arithmetic inside the loop (lines 70-73) and the products `T*scale`,
  `L*scale` of the driver are exact.
* `std::vector<double>` and the stack arrays are lists; `v[k] += x` is
  `modifyAt v k (· + x)`.
* The `omp parallel for` loop with its vector reduction is modelled by the sequential
  loop over the linear index `i` (`momentumCorr`); `momentumCorrPar` is the same loop run
  on private vectors that are merged by the declared reduction.
* The cache files `corr_<tag>` are a map from file names to the list of
  `(index, value)` lines they hold.  Writing a value under `precision(16)` and reading it
  back is the parameter `Streams.prec16`; creating a file can fail (`Streams.canCreate`).
-/

namespace Vkvk

/-! ## Definitions -/

/-- The `<cmath>` primitives used by the program: `sin`, `cos`, `M_PI`. -/
structure Trig (α : Type) where
  /-- The function `sin`. -/
  sin : α → α
  /-- The function `cos`. -/
  cos : α → α
  /-- The constant `M_PI`. -/
  pi : α

/-- Square function (`sqr`, line 22). -/
def sqr {α : Type} [Mul α] (x : α) : α := x * x

/-- In-place update `v[k] = f (v[k])` of one slot of a vector; a write outside the
vector leaves it unchanged. -/
def modifyAt {α : Type} : List α → Nat → (α → α) → List α
  | [], _, _ => []
  | a :: as, 0, f => f a :: as
  | a :: as, k + 1, f => a :: modifyAt as k f

/-- Read `v[k]` of a vector or stack array of numbers. -/
def rd {α : Type} [Zero α] (v : List α) (k : Nat) : α := v.getD k 0

/-- The six momentum tables `pt0, p2t0, pc0` (size `T`) and `ptI, p2tI, pcI` (size `L`). -/
structure Tables (α : Type) where
  /-- Sine of the temporal momentum. -/
  pt0 : List α
  /-- Squared sine of the temporal momentum. -/
  p2t0 : List α
  /-- Cosine of the temporal momentum. -/
  pc0 : List α
  /-- Sine of the spatial momentum. -/
  ptI : List α
  /-- Squared sine of the spatial momentum. -/
  p2tI : List α
  /-- Cosine of the spatial momentum. -/
  pcI : List α

/-- The two table-filling loops (lines 41-57), given the values `sin0 iP0 = sin(p0)`,
`cos0 iP0 = cos(p0)`, `sinI iPI = sin(pI)`, `cosI iPI = cos(pI)`. -/
def mkTables {α : Type} [Mul α] (sin0 cos0 sinI cosI : Nat → α) (T L : Nat) : Tables α where
  pt0 := (List.range T).map sin0
  p2t0 := (List.range T).map (fun iP0 => sqr (sin0 iP0))
  pc0 := (List.range T).map cos0
  ptI := (List.range L).map sinI
  p2tI := (List.range L).map (fun iPI => sqr (sinI iPI))
  pcI := (List.range L).map cosI

/-- Temporal momentum index `iQ0 = (-1+sqrt(1+8*i))/2` truncated to `int` (line 70).
The truncated real square root is computed with the integer square root; see
`iQ0_eq_floor`. -/
def iQ0 (i : Nat) : Nat := (Nat.sqrt (1 + 8 * i) - 1) / 2

/-- Temporal momentum index `iP0 = i - iQ0*(iQ0+1)/2` (line 71). -/
def iP0 (i : Nat) : Nat := i - iQ0 i * (iQ0 i + 1) / 2

/-- The index recovery of lines 70-71 as a pair `(iQ0, iP0)`. -/
def decode (i : Nat) : Nat × Nat := (iQ0 i, iP0 i)

/-- The arrangement `i = iQ0*(iQ0+1)/2 + iP0` announced at line 66. -/
def encode (q0 p0 : Nat) : Nat := q0 * (q0 + 1) / 2 + p0

/-- The value of a 32-bit `int` computation whose exact result is `x`: the representative of
`x` modulo `2^32` in `[-2^31, 2^31)`. -/
def wrapInt32 (x : Int) : Int := (x + 2 ^ 31) % 2 ^ 32 - 2 ^ 31

/-- The loop bound `T*(T+1)/2` of line 68.  `T` is an `int`, so the sum, the product and the
division are 32-bit `int` operations (only the loop variable `i` is `int64_t`); the division
truncates toward zero. -/
def loopBound (T : Nat) : Int :=
  (wrapInt32 ((T : Int) * wrapInt32 ((T : Int) + 1))).tdiv 2

/-- The number of iterations of `for(int64_t i=0;i<T*(T+1)/2;i++)` (line 68): none when the
bound is not positive. -/
def loopCount (T : Nat) : Nat := (loopBound T).toNat

/-- Bin index `pmq0 = (T+iP0-iQ0)%T` (line 73). -/
def pmq0 (T p0 q0 : Nat) : Nat := (T + p0 - q0) % T

/-- Space parity multiplicity `parMult` (lines 81-84). -/
def parMult (L iP1 iP2 iP3 : Nat) : Nat :=
  ((if iP1 ≠ 0 ∧ iP1 ≠ L / 2 then 1 else 0) + 1) *
  ((if iP2 ≠ 0 ∧ iP2 ≠ L / 2 then 1 else 0) + 1) *
  ((if iP3 ≠ 0 ∧ iP3 ≠ L / 2 then 1 else 0) + 1)

/-- The table `permMultTable` (lines 88-89). -/
def permMultTable : List Nat := [1, 1, 3, 6]

/-- The index `(iP1!=iP2)+(iP2!=iP3)+(iP3!=iP1)` into `permMultTable` (lines 94-96). -/
def permIndex (iP1 iP2 iP3 : Nat) : Nat :=
  (if iP1 ≠ iP2 then 1 else 0) + (if iP2 ≠ iP3 then 1 else 0) + (if iP3 ≠ iP1 then 1 else 0)

/-- Space components multiplicity `permMult` (lines 92-96). -/
def permMult (iP1 iP2 iP3 : Nat) : Nat :=
  permMultTable.getD (permIndex iP1 iP2 iP3) 0

section Kernel

variable {α : Type} [Field α]

/-- Phase factor at the time boundary `bc0 = 0.5` (lines 35-36). -/
def bc0 : α := 1 / 2

/-- Number of colours `Nc = 3` (line 60). -/
def Nc : Nat := 3

/-- The value `M(p)` (lines 99-100). -/
def Mp (tb : Tables α) (p0 iP1 iP2 iP3 : Nat) : α :=
  4 - rd tb.pc0 p0 - rd tb.pcI iP1 - rd tb.pcI iP2 - rd tb.pcI iP3

/-- The value `M(q)` (lines 103-104). -/
def Mq (tb : Tables α) (q0 iP1 iP2 iP3 : Nat) : α :=
  4 - rd tb.pc0 q0 - rd tb.pcI iP1 - rd tb.pcI iP2 - rd tb.pcI iP3

/-- Numerator of the loop integrand `num` (lines 107-108). -/
def num (tb : Tables α) (mu2 : α) (r12 : Int) (p0 q0 iP1 iP2 iP3 : Nat) : α :=
  mu2 + rd tb.pt0 p0 * rd tb.pt0 q0 +
    (rd tb.ptI iP1 * rd tb.ptI iP1 + rd tb.ptI iP2 * rd tb.ptI iP2 +
      rd tb.ptI iP3 * rd tb.ptI iP3) / 3 -
    Mp tb p0 iP1 iP2 iP3 * Mq tb q0 iP1 iP2 iP3 * (r12 : α)

/-- Numerator for one local and one conserved current `num_cons` (line 111). -/
def num_cons (tb : Tables α) (mu2 : α) (p0 q0 iP1 iP2 iP3 : Nat) : α :=
  (mu2 + Mp tb p0 iP1 iP2 iP3 * Mq tb q0 iP1 iP2 iP3) *
      (rd tb.pcI iP1 + rd tb.pcI iP2 + rd tb.pcI iP3) / 3 +
    (rd tb.pt0 p0 * rd tb.pt0 q0 - rd tb.p2tI iP1 + rd tb.p2tI iP2 + rd tb.p2tI iP3) *
      rd tb.pcI iP1 / 3 +
    (rd tb.pt0 p0 * rd tb.pt0 q0 + rd tb.p2tI iP1 - rd tb.p2tI iP2 + rd tb.p2tI iP3) *
      rd tb.pcI iP2 / 3 +
    (rd tb.pt0 p0 * rd tb.pt0 q0 + rd tb.p2tI iP1 + rd tb.p2tI iP2 - rd tb.p2tI iP3) *
      rd tb.pcI iP3 / 3

/-- First factor of the denominator `dmp` (lines 115-116). -/
def dmp (tb : Tables α) (mu2 : α) (p0 iP1 iP2 iP3 : Nat) : α :=
  mu2 + sqr (Mp tb p0 iP1 iP2 iP3) + rd tb.p2t0 p0 + rd tb.p2tI iP1 + rd tb.p2tI iP2 +
    rd tb.p2tI iP3

/-- Second factor of the denominator `dmq` (lines 119-120). -/
def dmq (tb : Tables α) (mu2 : α) (q0 iP1 iP2 iP3 : Nat) : α :=
  mu2 + sqr (Mq tb q0 iP1 iP2 iP3) + rd tb.p2t0 q0 + rd tb.p2tI iP1 + rd tb.p2tI iP2 +
    rd tb.p2tI iP3

/-- Denominator `den = dmp*dmq` (lines 123-124). -/
def den (tb : Tables α) (mu2 : α) (p0 q0 iP1 iP2 iP3 : Nat) : α :=
  dmp tb mu2 p0 iP1 iP2 iP3 * dmq tb mu2 q0 iP1 iP2 iP3

/-- The quantity added to `temp` at line 127:
`(r12==0?num_cons:num)*parMult*permMult/den`. -/
def term (tb : Tables α) (L : Nat) (mu2 : α) (r12 : Int) (p0 q0 iP1 iP2 iP3 : Nat) : α :=
  (if r12 = 0 then num_cons tb mu2 p0 q0 iP1 iP2 iP3 else num tb mu2 r12 p0 q0 iP1 iP2 iP3) *
      (parMult L iP1 iP2 iP3 : α) * (permMult iP1 iP2 iP3 : α) /
    den tb mu2 p0 q0 iP1 iP2 iP3

/-- The running sum `temp` after the three spatial loops (lines 75-128). -/
def temp (tb : Tables α) (L : Nat) (mu2 : α) (r12 : Int) (p0 q0 : Nat) : α :=
  (List.range (L / 2 + 1)).foldl (fun acc iP1 =>
    (List.range (iP1 + 1)).foldl (fun acc iP2 =>
      (List.range (iP2 + 1)).foldl (fun acc iP3 =>
        acc + term tb L mu2 r12 p0 q0 iP1 iP2 iP3) acc) acc) 0

/-- The value `temp*(1+(iP0!=iQ0))` that work item `i` adds to its bin (line 130). -/
def pairTerm (tb : Tables α) (L : Nat) (mu2 : α) (r12 : Int) (i : Nat) : α :=
  temp tb L mu2 r12 (iP0 i) (iQ0 i) * (((1 + if iP0 i ≠ iQ0 i then 1 else 0 : Nat)) : α)

/-- One iteration of the loop over `i` (lines 68-131): `c[pmq0] += temp*(1+(iP0!=iQ0))`. -/
def pairStep (tb : Tables α) (T L : Nat) (mu2 : α) (r12 : Int) (c : List α) (i : Nat) :
    List α :=
  modifyAt c (pmq0 T (iP0 i) (iQ0 i)) (fun x => x + pairTerm tb L mu2 r12 i)

/-- The correlator in momentum space `c` after the loop over `i` (lines 63-131), the
work items being combined in increasing order of `i`.  The loop runs `loopCount T` times:
its bound `T*(T+1)/2` is computed in `int`. -/
def momentumCorr (tb : Tables α) (T L : Nat) (mu2 : α) (r12 : Int) : List α :=
  (List.range (loopCount T)).foldl (pairStep tb T L mu2 r12) (List.replicate T 0)

/-- The Fourier transform loops (lines 134-137), `cosF iP0 iT` being the value
`cos(2*M_PI*iP0/T*iT)`. -/
def fourier (cosF : Nat → Nat → α) (T : Nat) (c : List α) : List α :=
  (List.range T).foldl (fun d iT =>
    (List.range T).foldl (fun d k =>
      modifyAt d iT (fun x => x + cosF k iT * rd c k)) d) (List.replicate T 0)

/-- Normalization `n = 4.0*Nc/T/T/L/L/L` (lines 140-141). -/
def normalization (T L : Nat) : α :=
  4 * (Nc : α) / (T : α) / (T : α) / (L : α) / (L : α) / (L : α)

/-- The normalization loop (lines 144-145): `d[iT] *= n`. -/
def normalize (T : Nat) (n : α) (d : List α) : List α :=
  (List.range T).foldl (fun d iT => modifyAt d iT (fun x => x * n)) d

/-- The kernel `VKVK(T,L,mu,r12)` (lines 28-148) with the values of the transcendental
functions supplied by the caller: `sin0`, `cos0` at the temporal momenta, `sinI`, `cosI`
at the spatial momenta, and `cosF` in the Fourier transform. -/
def VKVK_core (sin0 cos0 sinI cosI : Nat → α) (cosF : Nat → Nat → α) (T L : Nat) (mu : α)
    (r12 : Int) : List α :=
  let mu2 := mu * mu
  let tb := mkTables sin0 cos0 sinI cosI T L
  let c := momentumCorr tb T L mu2 r12
  normalize T (normalization T L) (fourier cosF T c)

/-- Temporal momentum `p0 = 2.0*M_PI*(iP0+bc0)/T` (lines 43-44). -/
def p0 (tr : Trig α) (T k : Nat) : α := 2 * tr.pi * ((k : α) + bc0) / (T : α)

/-- Spatial momentum `pI = 2.0*M_PI*iPI/L` (lines 52-53). -/
def pI (tr : Trig α) (L k : Nat) : α := 2 * tr.pi * (k : α) / (L : α)

/-- The momentum tables of a kernel call (lines 38-57). -/
def tables (tr : Trig α) (T L : Nat) : Tables α :=
  mkTables (fun k => tr.sin (p0 tr T k)) (fun k => tr.cos (p0 tr T k))
    (fun k => tr.sin (pI tr L k)) (fun k => tr.cos (pI tr L k)) T L

/-- The Fourier factor `cos(2*M_PI*iP0/T*iT)` (line 137). -/
def cosF (tr : Trig α) (T k iT : Nat) : α := tr.cos (2 * tr.pi * (k : α) / (T : α) * (iT : α))

/-- The kernel: `VKVK(T,L,mu,r12)` (lines 28-148). -/
def VKVK (tr : Trig α) (T L : Nat) (mu : α) (r12 : Int) : List α :=
  VKVK_core (fun k => tr.sin (p0 tr T k)) (fun k => tr.cos (p0 tr T k))
    (fun k => tr.sin (pI tr L k)) (fun k => tr.cos (pI tr L k)) (cosF tr T) T L mu r12

end Kernel

section Driver

variable {α : Type} [Field α]

/-- The cache files: file name to the `(index, value)` lines the file holds, `none` when
the file does not exist.  The value of a line is the number its decimal text denotes. -/
abbrev Cache (α : Type) := String → Option (List (Nat × α))

/-- The behaviour of the file streams the driver uses. -/
structure Streams (α : Type) where
  /-- The number denoted by the text that `corrFile<<c[iT]` writes under `precision(16)`
  (lines 175-177), which is what `corrFile>>c[iT]` reads back (line 164). -/
  prec16 : α → α
  /-- Whether `ofstream corrFile(filePath)` can create the file (line 174); when it cannot,
  the writes are lost without any report. -/
  canCreate : String → Bool

/-- Creating the file `path` with the given lines (lines 174-177); nothing happens when the
file cannot be created. -/
def Cache.write (io : Streams α) (fs : Cache α) (path : String) (lines : List (Nat × α)) :
    Cache α :=
  if io.canCreate path then fun p => if p = path then some lines else fs p else fs

/-- The load loop (lines 161-164): `corrFile>>jT>>c[iT]` for `iT < T` on `vector<double> c(T)`;
a line that is missing leaves `c[iT]` at its initial value. -/
def loadCorr (T : Nat) (lines : List (Nat × α)) : List α :=
  (List.range T).foldl (fun c iT =>
    match lines[iT]? with
    | some (_, v) => modifyAt c iT (fun _ => v)
    | none => c) (List.replicate T 0)

/-- The down-sampling loop (lines 171-172): `c[t]=scaledC[t*scale]*scale*scale*scale` for
`t < T` on `vector<double> c(T)`; a read outside `scaledC` is an error (`none`). -/
def downsample (scaledC : List α) (T scale : Nat) : Option (List α) :=
  (List.range T).foldlM (fun c t =>
    match scaledC[t * scale]? with
    | some v => some (modifyAt c t (fun _ => v * (scale : α) * (scale : α) * (scale : α)))
    | none => none) (List.replicate T 0)

/-- The lines written to the cache file (lines 175-177): `iT` and `c[iT]` under
`precision(16)`, for `iT < T`. -/
def corrLines (io : Streams α) (T : Nat) (c : List α) : List (Nat × α) :=
  (List.range T).map (fun iT => (iT, io.prec16 (rd c iT)))

/-- The driver `VKVK(T,L,mu,r1,r2,scale,tag)` (lines 151-181) over an explicit cache, with the
kernel it calls as a parameter.  Returns the correlator and the cache after the call. -/
def VKVK_driver_with (io : Streams α) (kernel : Nat → Nat → α → Int → List α) (fs : Cache α)
    (T L : Nat) (mu : α) (r1 r2 : Int) (scale : Nat) (tag : String) :
    Option (List α × Cache α) :=
  let filePath := "corr_" ++ tag
  match fs filePath with
  | some lines => some (loadCorr T lines, fs)
  | none =>
    let scaledC := kernel (T * scale) (L * scale) (mu / (scale : α)) (r1 * r2)
    match downsample scaledC T scale with
    | some c => some (c, Cache.write io fs filePath (corrLines io T c))
    | none => none

/-- The driver `VKVK(T,L,mu,r1,r2,scale,tag)` (lines 151-181) calling the kernel `VKVK`. -/
def VKVK_driver (tr : Trig α) (io : Streams α) (fs : Cache α) (T L : Nat) (mu : α)
    (r1 r2 : Int) (scale : Nat) (tag : String) : Option (List α × Cache α) :=
  VKVK_driver_with io (VKVK tr) fs T L mu r1 r2 scale tag

end Driver

end Vkvk

namespace Vkvk

/-! ## Exact arithmetic in `ℚ(√2)` -/

/-- The field `ℚ(√2)`: `⟨a, b⟩` stands for `a + b√2`.  At `T = 4` and `L = 4` or `L = 2` all
sines and cosines of the kernel lie in this field. -/
@[ext]
structure Q2 where
  /-- Rational part. -/
  a : ℚ
  /-- Coefficient of `√2`. -/
  b : ℚ
deriving DecidableEq

namespace Q2

instance : CommRing Q2 where
  zero := ⟨0, 0⟩
  one := ⟨1, 0⟩
  add := fun x y => ⟨x.a + y.a, x.b + y.b⟩
  neg := fun x => ⟨-x.a, -x.b⟩
  sub := fun x y => ⟨x.a - y.a, x.b - y.b⟩
  mul := fun x y => ⟨x.a * y.a + 2 * (x.b * y.b), x.a * y.b + x.b * y.a⟩
  natCast := fun n => ⟨n, 0⟩
  intCast := fun n => ⟨n, 0⟩
  add_assoc := fun x y z => Q2.ext (add_assoc x.a y.a z.a) (add_assoc x.b y.b z.b)
  zero_add := fun x => Q2.ext (zero_add x.a) (zero_add x.b)
  add_zero := fun x => Q2.ext (add_zero x.a) (add_zero x.b)
  nsmul := fun n x => ⟨n * x.a, n * x.b⟩
  nsmul_zero := fun x => Q2.ext
    (show ((0 : ℕ) : ℚ) * x.a = 0 by simp) (show ((0 : ℕ) : ℚ) * x.b = 0 by simp)
  nsmul_succ := fun n x => Q2.ext
    (show ((n + 1 : ℕ) : ℚ) * x.a = (n : ℚ) * x.a + x.a by push_cast; ring)
    (show ((n + 1 : ℕ) : ℚ) * x.b = (n : ℚ) * x.b + x.b by push_cast; ring)
  add_comm := fun x y => Q2.ext (add_comm x.a y.a) (add_comm x.b y.b)
  left_distrib := fun x y z => Q2.ext
    (show x.a * (y.a + z.a) + 2 * (x.b * (y.b + z.b)) =
      x.a * y.a + 2 * (x.b * y.b) + (x.a * z.a + 2 * (x.b * z.b)) by ring)
    (show x.a * (y.b + z.b) + x.b * (y.a + z.a) =
      x.a * y.b + x.b * y.a + (x.a * z.b + x.b * z.a) by ring)
  right_distrib := fun x y z => Q2.ext
    (show (x.a + y.a) * z.a + 2 * ((x.b + y.b) * z.b) =
      x.a * z.a + 2 * (x.b * z.b) + (y.a * z.a + 2 * (y.b * z.b)) by ring)
    (show (x.a + y.a) * z.b + (x.b + y.b) * z.a =
      x.a * z.b + x.b * z.a + (y.a * z.b + y.b * z.a) by ring)
  zero_mul := fun x => Q2.ext
    (show (0 : ℚ) * x.a + 2 * (0 * x.b) = 0 by ring) (show (0 : ℚ) * x.b + 0 * x.a = 0 by ring)
  mul_zero := fun x => Q2.ext
    (show x.a * 0 + 2 * (x.b * 0) = (0 : ℚ) by ring) (show x.a * 0 + x.b * 0 = (0 : ℚ) by ring)
  mul_assoc := fun x y z => Q2.ext
    (show (x.a * y.a + 2 * (x.b * y.b)) * z.a + 2 * ((x.a * y.b + x.b * y.a) * z.b) =
      x.a * (y.a * z.a + 2 * (y.b * z.b)) + 2 * (x.b * (y.a * z.b + y.b * z.a)) by ring)
    (show (x.a * y.a + 2 * (x.b * y.b)) * z.b + (x.a * y.b + x.b * y.a) * z.a =
      x.a * (y.a * z.b + y.b * z.a) + x.b * (y.a * z.a + 2 * (y.b * z.b)) by ring)
  one_mul := fun x => Q2.ext
    (show (1 : ℚ) * x.a + 2 * (0 * x.b) = x.a by ring) (show (1 : ℚ) * x.b + 0 * x.a = x.b by ring)
  mul_one := fun x => Q2.ext
    (show x.a * 1 + 2 * (x.b * 0) = x.a by ring) (show x.a * 0 + x.b * 1 = x.b by ring)
  natCast_zero := Q2.ext (show ((0 : ℕ) : ℚ) = 0 from Nat.cast_zero) rfl
  natCast_succ := fun n => Q2.ext
    (show ((n + 1 : ℕ) : ℚ) = (n : ℚ) + 1 from Nat.cast_succ n) (show (0 : ℚ) = 0 + 0 by simp)
  zsmul := fun n x => ⟨n * x.a, n * x.b⟩
  zsmul_zero' := fun x => Q2.ext
    (show ((0 : ℤ) : ℚ) * x.a = 0 by simp) (show ((0 : ℤ) : ℚ) * x.b = 0 by simp)
  zsmul_succ' := fun n x => Q2.ext
    (show (((n.succ : ℕ) : ℤ) : ℚ) * x.a = (((n : ℕ) : ℤ) : ℚ) * x.a + x.a by push_cast; ring)
    (show (((n.succ : ℕ) : ℤ) : ℚ) * x.b = (((n : ℕ) : ℤ) : ℚ) * x.b + x.b by push_cast; ring)
  zsmul_neg' := fun n x => Q2.ext
    (show ((Int.negSucc n : ℤ) : ℚ) * x.a = -((((n.succ : ℕ) : ℤ) : ℚ) * x.a) by
      rw [Int.cast_negSucc]; push_cast; ring)
    (show ((Int.negSucc n : ℤ) : ℚ) * x.b = -((((n.succ : ℕ) : ℤ) : ℚ) * x.b) by
      rw [Int.cast_negSucc]; push_cast; ring)
  neg_add_cancel := fun x => Q2.ext (neg_add_cancel x.a) (neg_add_cancel x.b)
  sub_eq_add_neg := fun x y => Q2.ext (sub_eq_add_neg x.a y.a) (sub_eq_add_neg x.b y.b)
  intCast_ofNat := fun n => Q2.ext (show (((n : ℕ) : ℤ) : ℚ) = (n : ℚ) from Int.cast_natCast n) rfl
  intCast_negSucc := fun n => Q2.ext
    (show ((Int.negSucc n : ℤ) : ℚ) = -(((n + 1 : ℕ)) : ℚ) by rw [Int.cast_negSucc])
    (show (0 : ℚ) = -0 by simp)
  mul_comm := fun x y => Q2.ext
    (show x.a * y.a + 2 * (x.b * y.b) = y.a * x.a + 2 * (y.b * x.b) by ring)
    (show x.a * y.b + x.b * y.a = y.a * x.b + y.b * x.a by ring)

instance : Field Q2 where
  inv := fun x =>
    ⟨x.a / (x.a * x.a - 2 * (x.b * x.b)), -x.b / (x.a * x.a - 2 * (x.b * x.b))⟩
  exists_pair_ne := ⟨⟨0, 0⟩, ⟨1, 0⟩, by decide⟩
  mul_inv_cancel := fun ⟨a, b⟩ h => by
    have hN : a * a - 2 * (b * b) ≠ 0 := by
      intro h0
      by_cases hb : b = 0
      · subst hb
        have ha : a = 0 := by
          have : a * a = 0 := by linarith
          exact mul_self_eq_zero.mp this
        subst ha
        exact h rfl
      · have h2 : IsSquare (((2 : ℕ) : ℚ)) := ⟨a / b, by
          field_simp
          linarith⟩
        rw [Rat.isSquare_natCast_iff] at h2
        obtain ⟨r, hr⟩ := h2
        have hr2 : r < 2 := by nlinarith
        interval_cases r <;> omega
    apply Q2.ext
    · show a * (a / (a * a - 2 * (b * b))) + 2 * (b * (-b / (a * a - 2 * (b * b)))) = 1
      field_simp
      ring
    · show a * (-b / (a * a - 2 * (b * b))) + b * (a / (a * a - 2 * (b * b))) = 0
      field_simp
      ring
  inv_zero := by
    apply Q2.ext
    · show (0 : ℚ) / (0 * 0 - 2 * (0 * 0)) = 0
      simp
    · show -(0 : ℚ) / (0 * 0 - 2 * (0 * 0)) = 0
      simp
  nnqsmul := _
  nnqsmul_def := fun _ _ => rfl
  qsmul := _
  qsmul_def := fun _ _ => rfl
  nnratCast_def := fun _ => rfl
  ratCast_def := fun _ => rfl

/-- Sign test: `isPos x = true` when `0 < a + b√2`. -/
def isPos (x : Q2) : Bool :=
  (decide (0 ≤ x.a) && decide (0 ≤ x.b) && (decide (x.a ≠ 0) || decide (x.b ≠ 0))) ||
  (decide (0 < x.a) && decide (x.b < 0) && decide (2 * (x.b * x.b) < x.a * x.a)) ||
  (decide (x.a < 0) && decide (0 < x.b) && decide (x.a * x.a < 2 * (x.b * x.b)))

/-- The value `√2/2`. -/
def hs : Q2 := ⟨0, 1 / 2⟩

/-- The values `sin(p0)` at `T = 4`. -/
def sin0 (k : Nat) : Q2 := [hs, hs, -hs, -hs].getD k 0

/-- The values `cos(p0)` at `T = 4`. -/
def cos0 (k : Nat) : Q2 := [hs, -hs, -hs, hs].getD k 0

/-- The values `sin(pI)` at `L = 4`. -/
def sinI (k : Nat) : Q2 := [0, 1, 0, -1].getD k 0

/-- The values `cos(pI)` at `L = 4`. -/
def cosI (k : Nat) : Q2 := [1, 0, -1, 0].getD k 0

/-- The Fourier factors `cos(2*M_PI*iP0/T*iT)` at `T = 4`. -/
def cosF4 (k t : Nat) : Q2 := [1, 0, -1, 0].getD (k * t % 4) 0

end Q2

end Vkvk

namespace Vkvk

/-- The sum of `parMult * permMult` over the spatial triples visited by the loops of lines
76-78 (`0 ≤ iP3 ≤ iP2 ≤ iP1 ≤ L/2`). -/
def weightSum (L : Nat) : Nat :=
  (List.range (L / 2 + 1)).foldl (fun acc iP1 =>
    (List.range (iP1 + 1)).foldl (fun acc iP2 =>
      (List.range (iP2 + 1)).foldl (fun acc iP3 =>
        acc + parMult L iP1 iP2 iP3 * permMult iP1 iP2 iP3) acc) acc) 0

end Vkvk

namespace Vkvk

/-- The values of `r2` that `main` sweeps over (line 204). -/
def r2Sweep : List Int := [-1, 1, 0]

/-- The tag number `r2tag = (r2==0)?2:((r2+1)/2)` of `main` (line 210); `/` is the integer
division of C, which truncates toward zero. -/
def r2tag (r2 : Int) : Int := if r2 = 0 then 2 else (r2 + 1).tdiv 2

section Reduction

variable {α : Type} [Field α]

/-- The combiner of the declared reduction `vec_double_plus` (lines 13-18):
`std::transform(omp_out.begin(), omp_out.end(), omp_in.begin(), omp_out.begin(), plus)`. -/
def vec_double_plus (omp_out omp_in : List α) : List α :=
  List.zipWith (fun x y => x + y) omp_out omp_in

/-- The initializer of the declared reduction (line 19): a private vector of the size of
the original, value-initialized. -/
def omp_priv (omp_orig : List α) : List α := List.replicate omp_orig.length 0

/-- The accumulator `c` after the loop of lines 67-131 run as a reduction: every worker
applies the loop body to its own work items, in its own order, on a private vector, and the
private vectors are combined into `c` one after the other. -/
def momentumCorrPar (tb : Tables α) (T L : Nat) (mu2 : α) (r12 : Int)
    (chunks : List (List Nat)) : List α :=
  chunks.foldl (fun omp_out chunk =>
    vec_double_plus omp_out
      (chunk.foldl (pairStep tb T L mu2 r12) (omp_priv (List.replicate T 0))))
    (List.replicate T 0)

end Reduction

section Reference

variable {α : Type} [Field α]

/-- The selected numerator over the denominator, `(r12==0?num_cons:num)/den`: the summand
of line 127 without the two multiplicities. -/
def summand (tb : Tables α) (mu2 : α) (r12 : Int) (p0 q0 iP1 iP2 iP3 : Nat) : α :=
  (if r12 = 0 then num_cons tb mu2 p0 q0 iP1 iP2 iP3 else num tb mu2 r12 p0 q0 iP1 iP2 iP3) /
    den tb mu2 p0 q0 iP1 iP2 iP3

/-- Reference form of the spatial sum, to compare `temp` with: the sum of the summand over
all spatial momentum triples `(k1, k2, k3)` in `[0,L)^3`, without symmetry reduction. -/
def fullSpatialSum (tb : Tables α) (L : Nat) (mu2 : α) (r12 : Int) (p0 q0 : Nat) : α :=
  ∑ k1 in Finset.range L, ∑ k2 in Finset.range L, ∑ k3 in Finset.range L,
    summand tb mu2 r12 p0 q0 k1 k2 k3

/-- Reference form of the kernel output, to compare `VKVK` with: the full sum over the
ordered pairs `(P0, Q0)` in `[0,T) × [0,T)`,
`(12 / (T^2 L^3)) * Σ cos(2 pi (P0 - Q0) t / T) * S(P0, Q0)`, where `S` is the kernel's
per-pair spatial sum `temp`. -/
def fullPairSum (tr : Trig α) (T L : Nat) (mu : α) (r12 : Int) (t : Nat) : α :=
  12 / ((T : α) ^ 2 * (L : α) ^ 3) *
    ∑ P0 in Finset.range T, ∑ Q0 in Finset.range T,
      tr.cos (2 * tr.pi * ((P0 : α) - (Q0 : α)) * (t : α) / (T : α)) *
        temp (tables tr T L) L (mu * mu) r12 P0 Q0

end Reference

end Vkvk

namespace Vkvk

/-! ## The triangular pair index (claim C2) -/

theorem two_mul_half_mul_succ (q : Nat) : 2 * (q * (q + 1) / 2) = q * (q + 1) :=
  Nat.mul_div_cancel' (Nat.even_mul_succ_self q).two_dvd

theorem half_mul_succ_succ (q : Nat) :
    (q + 1) * (q + 1 + 1) / 2 = q * (q + 1) / 2 + q + 1 := by
  have h1 := two_mul_half_mul_succ q
  have h2 := two_mul_half_mul_succ (q + 1)
  have h3 : (q + 1) * (q + 1 + 1) = q * (q + 1) + 2 * q + 2 := by ring
  omega

theorem half_mul_succ_mono {a b : Nat} (h : a ≤ b) : a * (a + 1) / 2 ≤ b * (b + 1) / 2 :=
  Nat.div_le_div_right (Nat.mul_le_mul h (Nat.succ_le_succ h))

/-- The recovered `iQ0` is the row of the triangle that holds `i`. -/
theorem iQ0_bounds (i : Nat) :
    iQ0 i * (iQ0 i + 1) / 2 ≤ i ∧ i < (iQ0 i + 1) * (iQ0 i + 1 + 1) / 2 := by
  have hs1 : Nat.sqrt (1 + 8 * i) * Nat.sqrt (1 + 8 * i) ≤ 1 + 8 * i := Nat.sqrt_le _
  have hs2 : 1 + 8 * i < (Nat.sqrt (1 + 8 * i) + 1) * (Nat.sqrt (1 + 8 * i) + 1) :=
    Nat.lt_succ_sqrt _
  have hs0 : 1 ≤ Nat.sqrt (1 + 8 * i) := Nat.le_sqrt.2 (by omega)
  have hq : iQ0 i = (Nat.sqrt (1 + 8 * i) - 1) / 2 := rfl
  generalize Nat.sqrt (1 + 8 * i) = s at hs1 hs2 hs0 hq
  generalize iQ0 i = q at hq ⊢
  have hq1 : 2 * q + 1 ≤ s := by omega
  have hq2 : s ≤ 2 * q + 2 := by omega
  have h1 := two_mul_half_mul_succ q
  have h2 := two_mul_half_mul_succ (q + 1)
  have h3 : (2 * q + 1) * (2 * q + 1) ≤ s * s := Nat.mul_le_mul hq1 hq1
  have h4 : (s + 1) * (s + 1) ≤ (2 * q + 3) * (2 * q + 3) :=
    Nat.mul_le_mul (by omega) (by omega)
  constructor
  · nlinarith
  · nlinarith

/-- A row `q` whose range holds `i` is the recovered `iQ0`. -/
theorem iQ0_eq_of_bounds {i q : Nat} (h1 : q * (q + 1) / 2 ≤ i)
    (h2 : i < (q + 1) * (q + 1 + 1) / 2) : iQ0 i = q := by
  have e1 := two_mul_half_mul_succ q
  have e2 := two_mul_half_mul_succ (q + 1)
  have hs1 : 2 * q + 1 ≤ Nat.sqrt (1 + 8 * i) := Nat.le_sqrt.2 (by nlinarith)
  have hs2 : Nat.sqrt (1 + 8 * i) < 2 * q + 3 := Nat.sqrt_lt.2 (by nlinarith)
  unfold iQ0
  omega

/-- The integer square root in `iQ0` computes the truncation of the real expression
`(-1+sqrt(1+8*i))/2` of line 70. -/
theorem iQ0_eq_floor (i : Nat) :
    (iQ0 i : ℤ) = ⌊((-1 : ℝ) + Real.sqrt (1 + 8 * (i : ℝ))) / 2⌋ := by
  obtain ⟨h1, h2⟩ := iQ0_bounds i
  have e1 := two_mul_half_mul_succ (iQ0 i)
  have e2 := two_mul_half_mul_succ (iQ0 i + 1)
  generalize iQ0 i = q at h1 h2 e1 e2
  have h1r : ((q : ℝ) * (q + 1)) ≤ 2 * (i : ℝ) := by
    have : q * (q + 1) ≤ 2 * i := by omega
    exact_mod_cast this
  have h2r : 2 * (i : ℝ) < ((q : ℝ) + 1) * (q + 1 + 1) := by
    have : 2 * i < (q + 1) * (q + 1 + 1) := by omega
    exact_mod_cast this
  symm
  rw [Int.floor_eq_iff]
  have hq0 : (0 : ℝ) ≤ q := Nat.cast_nonneg q
  constructor
  · have : (2 * (q : ℝ) + 1) ≤ Real.sqrt (1 + 8 * (i : ℝ)) :=
      Real.le_sqrt_of_sq_le (by nlinarith)
    push_cast
    linarith
  · have : Real.sqrt (1 + 8 * (i : ℝ)) < 2 * (q : ℝ) + 3 := by
      rw [Real.sqrt_lt' (by linarith)]
      nlinarith
    push_cast
    linarith

theorem iQ0_lt {T i : Nat} (h : i < T * (T + 1) / 2) : iQ0 i < T := by
  by_contra hc
  have := half_mul_succ_mono (Nat.le_of_not_lt hc)
  have := (iQ0_bounds i).1
  omega

theorem iP0_le (i : Nat) : iP0 i ≤ iQ0 i := by
  have h := iQ0_bounds i
  have := half_mul_succ_succ (iQ0 i)
  unfold iP0
  omega

theorem encode_decode (i : Nat) : encode (iQ0 i) (iP0 i) = i := by
  have h := iQ0_bounds i
  unfold encode iP0
  omega

theorem encode_lt {T q p : Nat} (hp : p ≤ q) (hq : q < T) : encode q p < T * (T + 1) / 2 := by
  have h1 := half_mul_succ_succ q
  have h2 : (q + 1) * (q + 1 + 1) / 2 ≤ T * (T + 1) / 2 := half_mul_succ_mono hq
  unfold encode
  omega

theorem decode_encode {q p : Nat} (hp : p ≤ q) : decode (encode q p) = (q, p) := by
  have h1 := half_mul_succ_succ q
  have hq : iQ0 (encode q p) = q := by
    apply iQ0_eq_of_bounds <;> unfold encode <;> omega
  unfold decode
  rw [Prod.mk.injEq]
  refine ⟨hq, ?_⟩
  unfold iP0
  rw [hq]
  unfold encode
  omega

/-- Claim C2. For every `T ≥ 1` the index recovery `i ↦ (iQ0, iP0)` of lines 70-71 is a
bijection from the linear indices `[0, T(T+1)/2)` onto the pairs with
`0 ≤ P0 ≤ Q0 < T`, and `(Q0, P0) ↦ Q0(Q0+1)/2 + P0` is its inverse on both sides. -/
theorem decode_bijOn (T : Nat) (hT : 1 ≤ T) :
    Set.BijOn decode (Set.Iio (T * (T + 1) / 2)) {x : Nat × Nat | x.2 ≤ x.1 ∧ x.1 < T} ∧
    (∀ i, i < T * (T + 1) / 2 → encode (decode i).1 (decode i).2 = i) ∧
    (∀ q p, p ≤ q → q < T →
      encode q p < T * (T + 1) / 2 ∧ decode (encode q p) = (q, p)) := by
  refine ⟨⟨?_, ?_, ?_⟩, ?_, ?_⟩
  · intro i hi
    exact ⟨iP0_le i, iQ0_lt hi⟩
  · intro i _ j _ hij
    have hi := encode_decode i
    have hj := encode_decode j
    have h1 : iQ0 i = iQ0 j := congrArg Prod.fst hij
    have h2 : iP0 i = iP0 j := congrArg Prod.snd hij
    rw [← hi, ← hj, h1, h2]
  · rintro ⟨q, p⟩ ⟨hp, hq⟩
    exact ⟨encode q p, encode_lt hp hq, decode_encode hp⟩
  · intro i _
    exact encode_decode i
  · intro q p hp hq
    exact ⟨encode_lt hp hq, decode_encode hp⟩

/-- Witness of `decode_bijOn` at `T = 3`. -/
theorem decode_bijOn_witness :
    Set.BijOn decode (Set.Iio (3 * (3 + 1) / 2)) {x : Nat × Nat | x.2 ≤ x.1 ∧ x.1 < 3} ∧
    (∀ i, i < 3 * (3 + 1) / 2 → encode (decode i).1 (decode i).2 = i) ∧
    (∀ q p, p ≤ q → q < 3 →
      encode q p < 3 * (3 + 1) / 2 ∧ decode (encode q p) = (q, p)) :=
  decode_bijOn 3 (by decide)

end Vkvk

namespace Vkvk

/-! ## Vectors: slot updates and loops -/

section Loops

variable {α : Type}

theorem length_modifyAt (l : List α) (k : Nat) (f : α → α) :
    (modifyAt l k f).length = l.length := by
  induction l generalizing k with
  | nil => rfl
  | cons a as ih =>
    cases k with
    | zero => rfl
    | succ k => simp [modifyAt, ih]

theorem getElem?_modifyAt (l : List α) (k : Nat) (f : α → α) (i : Nat) :
    (modifyAt l k f)[i]? = if i = k then l[i]?.map f else l[i]? := by
  induction l generalizing k i with
  | nil => simp [modifyAt]
  | cons a as ih =>
    cases k with
    | zero =>
      cases i with
      | zero => simp [modifyAt]
      | succ i => simp [modifyAt]
    | succ k =>
      cases i with
      | zero => simp [modifyAt]
      | succ i => simp [modifyAt, ih]

theorem rd_eq [Zero α] (v : List α) (k : Nat) : rd v k = (v[k]?).getD 0 := by
  simp [rd, List.getD_eq_getElem?_getD]

/-- A loop `for (k = 0; k < n; k++) v[k] = F k (v[k])`. -/
theorem getElem?_foldl_each (F : Nat → α → α) (n : Nat) (d : List α) (i : Nat) :
    ((List.range n).foldl (fun d k => modifyAt d k (F k)) d)[i]? =
      if i < n then d[i]?.map (F i) else d[i]? := by
  induction n with
  | zero => simp
  | succ n ih =>
    rw [List.range_succ, List.foldl_append, List.foldl_cons, List.foldl_nil,
      getElem?_modifyAt, ih]
    by_cases h1 : i = n
    · subst h1
      simp
    · by_cases h2 : i < n
      · have : i < n + 1 := by omega
        simp [h1, h2, this]
      · have : ¬ i < n + 1 := by omega
        simp [h1, h2, this]

theorem length_foldl_modifyAt {ι : Type} (slot : ι → Nat) (F : ι → α → α) (l : List ι)
    (d : List α) :
    (l.foldl (fun d k => modifyAt d (slot k) (F k)) d).length = d.length := by
  induction l generalizing d with
  | nil => rfl
  | cons a as ih => rw [List.foldl_cons, ih, length_modifyAt]

/-- A loop of accumulations `v[slot k] += g k`. -/
theorem getElem?_foldl_accum [AddCommMonoid α] (slot : Nat → Nat) (g : Nat → α)
    (l : List Nat) (d : List α) (i : Nat) :
    (l.foldl (fun d k => modifyAt d (slot k) (fun x => x + g k)) d)[i]? =
      d[i]?.map (fun x => x + (l.map (fun k => if slot k = i then g k else 0)).sum) := by
  induction l generalizing d with
  | nil => simp
  | cons a as ih =>
    rw [List.foldl_cons, ih, getElem?_modifyAt]
    by_cases h : slot a = i
    · have h2 : i = slot a := h.symm
      simp only [h2, if_true, List.map_cons, List.sum_cons, Option.map_map]
      congr 1
      funext x
      simp [add_assoc]
    · have h2 : ¬ i = slot a := fun e => h e.symm
      simp [h, h2]

theorem foldl_add_eq [AddCommMonoid α] {ι : Type} (g : ι → α) (l : List ι) (a : α) :
    l.foldl (fun acc k => acc + g k) a = a + (l.map g).sum := by
  induction l generalizing a with
  | nil => simp
  | cons b bs ih => rw [List.foldl_cons, ih, List.map_cons, List.sum_cons, add_assoc]

theorem sum_map_range [AddCommMonoid α] (g : Nat → α) (n : Nat) :
    ((List.range n).map g).sum = ∑ k in Finset.range n, g k := by
  induction n with
  | zero => simp
  | succ n ih => simp [List.range_succ, Finset.sum_range_succ, ih]

theorem list_ext_rd [Zero α] {l₁ l₂ : List α} (hl : l₁.length = l₂.length)
    (h : ∀ i, i < l₁.length → rd l₁ i = rd l₂ i) : l₁ = l₂ := by
  apply List.ext_getElem hl
  intro i h1 h2
  have := h i h1
  simpa [rd_eq, List.getElem?_eq_getElem h1, List.getElem?_eq_getElem h2] using this

end Loops

end Vkvk

namespace Vkvk

/-! ## Closed forms of the kernel loops -/

section KernelForms

variable {α : Type} [Field α]

theorem temp_eq_sum (tb : Tables α) (L : Nat) (mu2 : α) (r12 : Int) (p q : Nat) :
    temp tb L mu2 r12 p q =
      ∑ iP1 in Finset.range (L / 2 + 1), ∑ iP2 in Finset.range (iP1 + 1),
        ∑ iP3 in Finset.range (iP2 + 1), term tb L mu2 r12 p q iP1 iP2 iP3 := by
  unfold temp
  simp only [foldl_add_eq, sum_map_range, zero_add]

theorem wrapInt32_of_lt (x : Int) (h0 : 0 ≤ x) (h1 : x < 2147483648) : wrapInt32 x = x := by
  unfold wrapInt32
  omega

/-- While `T*(T+1)` fits a 32-bit `int`, the loop of line 68 runs `T*(T+1)/2` times. -/
theorem loopCount_eq (T : Nat) (h : T * (T + 1) < 2 ^ 31) : loopCount T = T * (T + 1) / 2 := by
  have h1 : T + 1 < 2147483648 := by
    rcases Nat.eq_zero_or_pos T with h0 | h0
    · omega
    · have : 1 * (T + 1) ≤ T * (T + 1) := Nat.mul_le_mul_right _ h0
      omega
  have h2 : ((T * (T + 1) : Nat) : Int) < 2147483648 := by
    have : T * (T + 1) < 2147483648 := h
    exact_mod_cast this
  unfold loopCount loopBound
  rw [wrapInt32_of_lt ((T : Int) + 1) (by omega) (by omega)]
  have e : (T : Int) * ((T : Int) + 1) = ((T * (T + 1) : Nat) : Int) := by push_cast; ring
  rw [e, wrapInt32_of_lt _ (Int.natCast_nonneg _) h2,
    Int.tdiv_eq_ediv (Int.natCast_nonneg _) (by decide)]
  omega

/-- From `T = 46341` on the product `T*(T+1)` leaves the range of `int`; at `T = 46344` the
wrapped bound is negative and the loop body is never run. -/
theorem loopCount_overflow :
    loopBound 46344 = -1073577308 ∧ loopCount 46344 = 0 ∧ loopCount 46341 = 0 ∧
      loopCount 65536 = 32768 ∧ loopCount 46340 = 46340 * (46340 + 1) / 2 := by
  decide!

theorem length_momentumCorr (tb : Tables α) (T L : Nat) (mu2 : α) (r12 : Int) :
    (momentumCorr tb T L mu2 r12).length = T := by
  unfold momentumCorr pairStep
  rw [length_foldl_modifyAt (fun i => pmq0 T (iP0 i) (iQ0 i))
    (fun i x => x + pairTerm tb L mu2 r12 i), List.length_replicate]

/-- Bin `k` of the accumulator holds the sum of the contributions of the work items
whose bin index is `k`. -/
theorem rd_momentumCorr (tb : Tables α) (T L : Nat) (mu2 : α) (r12 : Int) (k : Nat)
    (hk : k < T) :
    rd (momentumCorr tb T L mu2 r12) k =
      ∑ i in Finset.range (loopCount T),
        if pmq0 T (iP0 i) (iQ0 i) = k then pairTerm tb L mu2 r12 i else 0 := by
  unfold momentumCorr pairStep
  rw [rd_eq, getElem?_foldl_accum (fun i => pmq0 T (iP0 i) (iQ0 i))
    (fun i => pairTerm tb L mu2 r12 i), sum_map_range, List.getElem?_replicate, if_pos hk,
    Option.map_some', Option.getD_some, zero_add]

/-- When the loop body is never run the accumulator stays at its initial zeros. -/
theorem momentumCorr_of_loopCount_zero (tb : Tables α) (T L : Nat) (mu2 : α) (r12 : Int)
    (h : loopCount T = 0) : momentumCorr tb T L mu2 r12 = List.replicate T 0 := by
  unfold momentumCorr
  rw [h]
  rfl

theorem foldl_accum_const (iT : Nat) (g : Nat → α) (l : List Nat) (d : List α) :
    l.foldl (fun d k => modifyAt d iT (fun x => x + g k)) d =
      modifyAt d iT (fun x => x + (l.map g).sum) := by
  apply List.ext_getElem?
  intro i
  rw [getElem?_foldl_accum (fun _ => iT) g, getElem?_modifyAt]
  by_cases h : i = iT
  · subst h
    simp
  · have h2 : ¬ iT = i := fun e => h e.symm
    simp [h, h2]

theorem length_fourier (cosF : Nat → Nat → α) (T : Nat) (c : List α) :
    (fourier cosF T c).length = T := by
  unfold fourier
  simp only [foldl_accum_const]
  rw [length_foldl_modifyAt (fun iT => iT)
    (fun iT x => x + ((List.range T).map (fun k => cosF k iT * rd c k)).sum)]
  simp

theorem rd_fourier (cosF : Nat → Nat → α) (T : Nat) (c : List α) (t : Nat) (ht : t < T) :
    rd (fourier cosF T c) t = ∑ k in Finset.range T, cosF k t * rd c k := by
  unfold fourier
  simp only [foldl_accum_const]
  rw [rd_eq, getElem?_foldl_each
    (fun iT x => x + ((List.range T).map (fun k => cosF k iT * rd c k)).sum), sum_map_range]
  simp [List.getElem?_replicate, ht]

theorem length_normalize (T : Nat) (n : α) (d : List α) :
    (normalize T n d).length = d.length := by
  unfold normalize
  rw [length_foldl_modifyAt (fun iT => iT) (fun _ x => x * n)]

theorem rd_normalize (T : Nat) (n : α) (d : List α) (t : Nat) (ht : t < T) :
    rd (normalize T n d) t = rd d t * n := by
  unfold normalize
  rw [rd_eq, rd_eq, getElem?_foldl_each (fun _ x => x * n)]
  cases h : d[t]? <;> simp [ht]

/-- The kernel returns a vector of `T` entries. -/
theorem length_VKVK_core (sin0 cos0 sinI cosI : Nat → α) (cosF : Nat → Nat → α) (T L : Nat)
    (mu : α) (r12 : Int) : (VKVK_core sin0 cos0 sinI cosI cosF T L mu r12).length = T := by
  unfold VKVK_core
  simp only [length_normalize, length_fourier]

/-- Entry `t` of the kernel output: the cosine transform of the accumulator times the
normalization. -/
theorem rd_VKVK_core (sin0 cos0 sinI cosI : Nat → α) (cosF : Nat → Nat → α) (T L : Nat)
    (mu : α) (r12 : Int) (t : Nat) (ht : t < T) :
    rd (VKVK_core sin0 cos0 sinI cosI cosF T L mu r12) t =
      (∑ k in Finset.range T,
        cosF k t * rd (momentumCorr (mkTables sin0 cos0 sinI cosI T L) T L (mu * mu) r12) k) *
        normalization T L := by
  unfold VKVK_core
  simp only [rd_normalize _ _ _ _ ht, rd_fourier _ _ _ _ ht]

theorem length_VKVK (tr : Trig α) (T L : Nat) (mu : α) (r12 : Int) :
    (VKVK tr T L mu r12).length = T :=
  length_VKVK_core _ _ _ _ _ T L mu r12

theorem rd_VKVK (tr : Trig α) (T L : Nat) (mu : α) (r12 : Int) (t : Nat) (ht : t < T) :
    rd (VKVK tr T L mu r12) t =
      (∑ k in Finset.range T,
        cosF tr T k t * rd (momentumCorr (tables tr T L) T L (mu * mu) r12) k) *
        normalization T L :=
  rd_VKVK_core _ _ _ _ _ T L mu r12 t ht

end KernelForms

end Vkvk

namespace Vkvk

/-! ## Time-reversal symmetry of the kernel output (claim C1) -/

theorem getElem?_eq_some_rd {α : Type} [Zero α] (v : List α) (k : Nat) (hk : k < v.length) :
    v[k]? = some (rd v k) := by
  simp [rd_eq, List.getElem?_eq_getElem hk]

/-- The Fourier factor at the reflected time `(T - t) % T` is the factor at `t`. -/
theorem cosF_reflect (T k t : Nat) (ht : t < T) :
    cosF (Trig.mk Real.sin Real.cos Real.pi) T k ((T - t) % T) =
      cosF (Trig.mk Real.sin Real.cos Real.pi) T k t := by
  unfold cosF
  rcases Nat.eq_zero_or_pos t with h0 | hpos
  · subst h0
    simp
  · have hlt : T - t < T := by omega
    have hT : (T : ℝ) ≠ 0 := by
      have : 0 < T := by omega
      exact_mod_cast this.ne'
    rw [Nat.mod_eq_of_lt hlt, Nat.cast_sub ht.le]
    have e : 2 * Real.pi * (k : ℝ) / (T : ℝ) * ((T : ℝ) - (t : ℝ)) =
        (k : ℝ) * (2 * Real.pi) - 2 * Real.pi * (k : ℝ) / (T : ℝ) * (t : ℝ) := by
      field_simp
      ring
    show Real.cos _ = Real.cos _
    rw [e, Real.cos_nat_mul_two_pi_sub]

/-- Claim C1. For positive `T` and `L`, real `mu` and integer `r12`, the array returned by
the kernel is symmetric under time reversal: `d[t] = d[(T - t) mod T]` for `0 ≤ t < T`. -/
theorem VKVK_time_reversal (T L : Nat) (hT : 0 < T) (hL : 0 < L) (mu : ℝ) (r12 : ℤ)
    (t : Nat) (ht : t < T) :
    (VKVK (Trig.mk Real.sin Real.cos Real.pi) T L mu r12)[t]? =
      (VKVK (Trig.mk Real.sin Real.cos Real.pi) T L mu r12)[(T - t) % T]? := by
  have hr : (T - t) % T < T := Nat.mod_lt _ hT
  rw [getElem?_eq_some_rd _ _ (by rw [length_VKVK]; exact ht),
    getElem?_eq_some_rd _ _ (by rw [length_VKVK]; exact hr), rd_VKVK _ _ _ _ _ _ ht,
    rd_VKVK _ _ _ _ _ _ hr]
  simp only [cosF_reflect T _ t ht]

/-- Witness of `VKVK_time_reversal` at `T = 4`, `L = 4`, `mu = 1/10`, `r12 = 1`, `t = 1`. -/
theorem VKVK_time_reversal_witness :
    (VKVK (Trig.mk Real.sin Real.cos Real.pi) 4 4 (1 / 10) 1)[1]? =
      (VKVK (Trig.mk Real.sin Real.cos Real.pi) 4 4 (1 / 10) 1)[(4 - 1) % 4]? :=
  VKVK_time_reversal 4 4 (by decide) (by decide) (1 / 10) 1 1 (by decide)

/-! ## The driver (claims C3, C4, C5) -/

section DriverForms

variable {α : Type} [Field α]

/-- The down-sampling loop succeeds when every read is inside `scaledC`, and then yields the
same vector as the loop without the bound check. -/
theorem foldlM_downsample (scaledC : List α) (scale n : Nat)
    (h : ∀ t, t < n → t * scale < scaledC.length) (d : List α) :
    (List.range n).foldlM (fun c t =>
      match scaledC[t * scale]? with
      | some v => some (modifyAt c t (fun _ => v * (scale : α) * (scale : α) * (scale : α)))
      | none => none) d =
    some ((List.range n).foldl (fun c t => modifyAt c t
      (fun _ => rd scaledC (t * scale) * (scale : α) * (scale : α) * (scale : α))) d) := by
  induction n with
  | zero => rfl
  | succ n ih =>
    rw [List.range_succ, List.foldlM_append, ih (fun t ht => h t (Nat.lt_succ_of_lt ht)),
      List.foldl_append]
    have hn := h n (Nat.lt_succ_self n)
    have e : scaledC[n * scale]? = some (rd scaledC (n * scale)) :=
      getElem?_eq_some_rd _ _ hn
    simp [e]

theorem downsample_eq_some (scaledC : List α) (T scale : Nat)
    (h : ∀ t, t < T → t * scale < scaledC.length) :
    ∃ c, downsample scaledC T scale = some c ∧ c.length = T ∧
      ∀ t, t < T → rd c t = rd scaledC (t * scale) * (scale : α) * (scale : α) * (scale : α) := by
  refine ⟨_, foldlM_downsample scaledC scale T h _, ?_, ?_⟩
  · rw [length_foldl_modifyAt (fun t => t)
      (fun t _ => rd scaledC (t * scale) * (scale : α) * (scale : α) * (scale : α))]
    simp
  · intro t ht
    rw [rd_eq, getElem?_foldl_each
      (fun t _ => rd scaledC (t * scale) * (scale : α) * (scale : α) * (scale : α))]
    simp [List.getElem?_replicate, ht]

/-- Every read `scaledC[t*scale]` of the driver is inside the refined kernel output. -/
theorem downsample_index_lt {T scale t : Nat} (hs : 0 < scale) (ht : t < T) :
    t * scale < T * scale :=
  Nat.mul_lt_mul_of_pos_right ht hs

/-- The computed branch of the driver. -/
theorem driver_miss (io : Streams α) (kernel : Nat → Nat → α → Int → List α)
    (hk : ∀ T L mu r12, (kernel T L mu r12).length = T) (fs : Cache α) (T L : Nat) (mu : α)
    (r1 r2 : Int) (scale : Nat) (hs : 0 < scale) (tag : String)
    (hmiss : fs ("corr_" ++ tag) = none) :
    ∃ c, VKVK_driver_with io kernel fs T L mu r1 r2 scale tag =
        some (c, Cache.write io fs ("corr_" ++ tag) (corrLines io T c)) ∧ c.length = T ∧
      ∀ t, t < T → rd c t =
        rd (kernel (T * scale) (L * scale) (mu / (scale : α)) (r1 * r2)) (t * scale) *
          (scale : α) * (scale : α) * (scale : α) := by
  obtain ⟨c, h1, h2, h3⟩ := downsample_eq_some
    (kernel (T * scale) (L * scale) (mu / (scale : α)) (r1 * r2)) T scale
    (fun t ht => by rw [hk]; exact downsample_index_lt hs ht)
  refine ⟨c, ?_, h2, h3⟩
  unfold VKVK_driver_with
  simp only [hmiss, h1]

end DriverForms

end Vkvk

namespace Vkvk

/-- Claim C3. For positive `T` and `L`, real `mu` and integers `r1`, `r2`, when no cache record
exists for the key, the driver with scale factor 1 returns exactly the kernel's direct
output `VKVK(T,L,mu,r1*r2)`. -/
theorem driver_scale_one (io : Streams ℝ) (T L : Nat) (hT : 0 < T) (hL : 0 < L) (mu : ℝ)
    (r1 r2 : ℤ) (tag : String) (fs : Cache ℝ) (hmiss : fs ("corr_" ++ tag) = none) :
    (VKVK_driver (Trig.mk Real.sin Real.cos Real.pi) io fs T L mu r1 r2 1 tag).map Prod.fst =
      some (VKVK (Trig.mk Real.sin Real.cos Real.pi) T L mu (r1 * r2)) := by
  obtain ⟨c, h1, h2, h3⟩ := driver_miss io (VKVK (Trig.mk Real.sin Real.cos Real.pi))
    (length_VKVK _) fs T L mu r1 r2 1 Nat.one_pos tag hmiss
  unfold VKVK_driver
  rw [h1, Option.map_some', Option.some.injEq]
  apply list_ext_rd
  · rw [h2, length_VKVK]
  · intro t ht
    rw [h3 t (h2 ▸ ht)]
    simp

/-- Witness of `driver_scale_one` at `T = 4`, `L = 2`, `mu = 1/10`, `r1 = 1`, `r2 = -1` on
the empty cache, with a stream that writes every value exactly. -/
theorem driver_scale_one_witness :
    (VKVK_driver (Trig.mk Real.sin Real.cos Real.pi) (Streams.mk id (fun _ => true))
        (fun _ => none) 4 2 (1 / 10) 1 (-1) 1 "key").map Prod.fst =
      some (VKVK (Trig.mk Real.sin Real.cos Real.pi) 4 2 (1 / 10) (1 * -1)) :=
  driver_scale_one (Streams.mk id (fun _ => true)) 4 2 (by decide) (by decide) (1 / 10) 1 (-1)
    "key" (fun _ => none) rfl

end Vkvk

namespace Vkvk

/-! ## The denominator (claim C6) -/

theorem rd_map_range {α : Type} [Zero α] (f : Nat → α) (n k : Nat) (hk : k < n) :
    rd ((List.range n).map f) k = f k := by
  simp [rd_eq, List.getElem?_map, List.getElem?_range hk]

/-- The antiperiodic temporal momentum is never a multiple of `2π`: its cosine is not 1. -/
theorem cos_p0_ne_one (T k : Nat) (hT : 0 < T) :
    Real.cos (p0 (Trig.mk Real.sin Real.cos Real.pi) T k) ≠ 1 := by
  intro h
  rw [Real.cos_eq_one_iff] at h
  obtain ⟨n, hn⟩ := h
  have hT0 : (T : ℝ) ≠ 0 := by exact_mod_cast hT.ne'
  have hpi : Real.pi ≠ 0 := Real.pi_ne_zero
  have e : (n : ℝ) * (T : ℝ) * 2 = 2 * (k : ℝ) + 1 := by
    unfold p0 bc0 at hn
    simp only [] at hn
    field_simp at hn
    nlinarith [hn, Real.pi_pos]
  have e2 : n * (T : ℤ) * 2 = 2 * (k : ℤ) + 1 := by exact_mod_cast e
  omega

/-- A propagator factor `mu2 + M² + Σ sin²` is strictly positive for `mu2 ≥ 0`. -/
theorem dmp_pos (T L : Nat) (hT : 0 < T) (mu2 : ℝ) (hmu : 0 ≤ mu2) (k iP1 iP2 iP3 : Nat)
    (hk : k < T) (h1 : iP1 < L) (h2 : iP2 < L) (h3 : iP3 < L) :
    0 < dmp (tables (Trig.mk Real.sin Real.cos Real.pi) T L) mu2 k iP1 iP2 iP3 := by
  have hc0 := cos_p0_ne_one T k hT
  have hc0' := Real.cos_le_one (p0 (Trig.mk Real.sin Real.cos Real.pi) T k)
  have hc1 := Real.cos_le_one (pI (Trig.mk Real.sin Real.cos Real.pi) L iP1)
  have hc2 := Real.cos_le_one (pI (Trig.mk Real.sin Real.cos Real.pi) L iP2)
  have hc3 := Real.cos_le_one (pI (Trig.mk Real.sin Real.cos Real.pi) L iP3)
  have hM : 0 < Mp (tables (Trig.mk Real.sin Real.cos Real.pi) T L) k iP1 iP2 iP3 := by
    unfold Mp tables mkTables
    simp only [rd_map_range _ _ _ hk, rd_map_range _ _ _ h1, rd_map_range _ _ _ h2,
      rd_map_range _ _ _ h3]
    have : Real.cos (p0 (Trig.mk Real.sin Real.cos Real.pi) T k) < 1 :=
      lt_of_le_of_ne hc0' hc0
    linarith
  unfold dmp
  have hsq : 0 < sqr (Mp (tables (Trig.mk Real.sin Real.cos Real.pi) T L) k iP1 iP2 iP3) :=
    mul_pos hM hM
  have e0 : 0 ≤ rd (tables (Trig.mk Real.sin Real.cos Real.pi) T L).p2t0 k := by
    unfold tables mkTables
    simp only [rd_map_range _ _ _ hk]
    exact mul_self_nonneg _
  have eI : ∀ j, j < L → 0 ≤ rd (tables (Trig.mk Real.sin Real.cos Real.pi) T L).p2tI j := by
    intro j hj
    unfold tables mkTables
    simp only [rd_map_range _ _ _ hj]
    exact mul_self_nonneg _
  have := eI iP1 h1
  have := eI iP2 h2
  have := eI iP3 h3
  linarith

theorem dmq_eq_dmp {α : Type} [Field α] (tb : Tables α) (mu2 : α) (k iP1 iP2 iP3 : Nat) :
    dmq tb mu2 k iP1 iP2 iP3 = dmp tb mu2 k iP1 iP2 iP3 := rfl

/-- The denominator `den = dmp*dmq` is strictly positive for `mu2 ≥ 0`. -/
theorem den_pos (T L : Nat) (hT : 0 < T) (mu2 : ℝ) (hmu : 0 ≤ mu2) (p q iP1 iP2 iP3 : Nat)
    (hp : p < T) (hq : q < T) (h1 : iP1 < L) (h2 : iP2 < L) (h3 : iP3 < L) :
    0 < den (tables (Trig.mk Real.sin Real.cos Real.pi) T L) mu2 p q iP1 iP2 iP3 := by
  unfold den
  rw [dmq_eq_dmp]
  exact mul_pos (dmp_pos T L hT mu2 hmu p iP1 iP2 iP3 hp h1 h2 h3)
    (dmp_pos T L hT mu2 hmu q iP1 iP2 iP3 hq h1 h2 h3)

/-- Claim C6. With `mu = 0` and `r12 ≠ 0`, for positive `T` and `L`, every term added to the
running sum `temp` is the quotient of the local numerator times the multiplicities by a
non-zero denominator `dmp*dmq`, at every momentum configuration visited by the loops
(`i < T(T+1)/2`, `iP3 ≤ iP2 ≤ iP1 ≤ L/2`) other than `iP1 = iP2 = iP3 = 0`, `iP0 = iQ0`. -/
theorem massless_term_finite (T L : Nat) (hT : 0 < T) (hL : 0 < L) (r12 : ℤ) (hr : r12 ≠ 0)
    (i iP1 iP2 iP3 : Nat) (hi : i < T * (T + 1) / 2) (h1 : iP1 ≤ L / 2) (h2 : iP2 ≤ iP1)
    (h3 : iP3 ≤ iP2) (hne : ¬ (iP1 = 0 ∧ iP2 = 0 ∧ iP3 = 0 ∧ iP0 i = iQ0 i)) :
    den (tables (Trig.mk Real.sin Real.cos Real.pi) T L) (0 * 0) (iP0 i) (iQ0 i) iP1 iP2 iP3
      ≠ 0 ∧
    term (tables (Trig.mk Real.sin Real.cos Real.pi) T L) L (0 * 0) r12 (iP0 i) (iQ0 i)
        iP1 iP2 iP3 =
      num (tables (Trig.mk Real.sin Real.cos Real.pi) T L) (0 * 0) r12 (iP0 i) (iQ0 i)
          iP1 iP2 iP3 * (parMult L iP1 iP2 iP3 : ℝ) * (permMult iP1 iP2 iP3 : ℝ) /
        den (tables (Trig.mk Real.sin Real.cos Real.pi) T L) (0 * 0) (iP0 i) (iQ0 i)
          iP1 iP2 iP3 := by
  have hq : iQ0 i < T := iQ0_lt hi
  have hp : iP0 i < T := lt_of_le_of_lt (iP0_le i) hq
  have hL2 : L / 2 < L := Nat.div_lt_self hL (by decide)
  constructor
  · exact (den_pos T L hT (0 * 0) (by norm_num) (iP0 i) (iQ0 i) iP1 iP2 iP3 hp hq
      (by omega) (by omega) (by omega)).ne'
  · unfold term
    rw [if_neg hr]

/-- Witness of `massless_term_finite` at `T = 4`, `L = 4`, `r12 = 1`, work item `i = 1`
(`iP0 = 0`, `iQ0 = 1`) and spatial indices `(2, 1, 0)`. -/
theorem massless_term_finite_witness :
    den (tables (Trig.mk Real.sin Real.cos Real.pi) 4 4) (0 * 0) (iP0 1) (iQ0 1) 2 1 0
      ≠ 0 ∧
    term (tables (Trig.mk Real.sin Real.cos Real.pi) 4 4) 4 (0 * 0) 1 (iP0 1) (iQ0 1)
        2 1 0 =
      num (tables (Trig.mk Real.sin Real.cos Real.pi) 4 4) (0 * 0) 1 (iP0 1) (iQ0 1)
          2 1 0 * (parMult 4 2 1 0 : ℝ) * (permMult 2 1 0 : ℝ) /
        den (tables (Trig.mk Real.sin Real.cos Real.pi) 4 4) (0 * 0) (iP0 1) (iQ0 1)
          2 1 0 :=
  massless_term_finite 4 4 (by decide) (by decide) 1 (by decide) 1 2 1 0 (by decide)
    (by decide) (by decide) (by decide) (by decide)

end Vkvk

namespace Vkvk

/-! ## Transport of the kernel along a field homomorphism -/

section Hom

variable {α β : Type} [Field α] [Field β] (φ : α →+* β)

theorem rd_map_range_hom (f : Nat → α) (n k : Nat) :
    rd ((List.range n).map (fun j => φ (f j))) k = φ (rd ((List.range n).map f) k) := by
  simp only [rd_eq, List.getElem?_map]
  cases (List.range n)[k]? <;> simp

theorem sqr_hom (x : α) : sqr (φ x) = φ (sqr x) := by
  simp [sqr]

variable (sin0 cos0 sinI cosI : Nat → α) (T L : Nat)

theorem Mp_hom (p iP1 iP2 iP3 : Nat) :
    Mp (mkTables (fun k => φ (sin0 k)) (fun k => φ (cos0 k)) (fun k => φ (sinI k))
      (fun k => φ (cosI k)) T L) p iP1 iP2 iP3 =
      φ (Mp (mkTables sin0 cos0 sinI cosI T L) p iP1 iP2 iP3) := by
  simp only [Mp, mkTables, rd_map_range_hom, map_sub, map_ofNat]

theorem num_hom (mu2 : α) (r12 : Int) (p q iP1 iP2 iP3 : Nat) :
    num (mkTables (fun k => φ (sin0 k)) (fun k => φ (cos0 k)) (fun k => φ (sinI k))
      (fun k => φ (cosI k)) T L) (φ mu2) r12 p q iP1 iP2 iP3 =
      φ (num (mkTables sin0 cos0 sinI cosI T L) mu2 r12 p q iP1 iP2 iP3) := by
  unfold num
  rw [Mp_hom]
  simp only [Mq, Mp, mkTables, rd_map_range_hom, map_sub, map_add, map_mul, map_div₀,
    map_ofNat, map_intCast]

theorem num_cons_hom (mu2 : α) (p q iP1 iP2 iP3 : Nat) :
    num_cons (mkTables (fun k => φ (sin0 k)) (fun k => φ (cos0 k)) (fun k => φ (sinI k))
      (fun k => φ (cosI k)) T L) (φ mu2) p q iP1 iP2 iP3 =
      φ (num_cons (mkTables sin0 cos0 sinI cosI T L) mu2 p q iP1 iP2 iP3) := by
  unfold num_cons
  rw [Mp_hom]
  simp only [Mq, Mp, mkTables, sqr_hom, rd_map_range_hom, map_sub, map_add, map_mul, map_div₀,
    map_ofNat]

theorem dmp_hom (mu2 : α) (p iP1 iP2 iP3 : Nat) :
    dmp (mkTables (fun k => φ (sin0 k)) (fun k => φ (cos0 k)) (fun k => φ (sinI k))
      (fun k => φ (cosI k)) T L) (φ mu2) p iP1 iP2 iP3 =
      φ (dmp (mkTables sin0 cos0 sinI cosI T L) mu2 p iP1 iP2 iP3) := by
  unfold dmp
  rw [Mp_hom, sqr_hom]
  simp only [mkTables, sqr_hom, rd_map_range_hom, map_add]

theorem den_hom (mu2 : α) (p q iP1 iP2 iP3 : Nat) :
    den (mkTables (fun k => φ (sin0 k)) (fun k => φ (cos0 k)) (fun k => φ (sinI k))
      (fun k => φ (cosI k)) T L) (φ mu2) p q iP1 iP2 iP3 =
      φ (den (mkTables sin0 cos0 sinI cosI T L) mu2 p q iP1 iP2 iP3) := by
  unfold den
  rw [dmq_eq_dmp, dmq_eq_dmp, dmp_hom, dmp_hom, map_mul]

theorem term_hom (mu2 : α) (r12 : Int) (p q iP1 iP2 iP3 : Nat) :
    term (mkTables (fun k => φ (sin0 k)) (fun k => φ (cos0 k)) (fun k => φ (sinI k))
      (fun k => φ (cosI k)) T L) L (φ mu2) r12 p q iP1 iP2 iP3 =
      φ (term (mkTables sin0 cos0 sinI cosI T L) L mu2 r12 p q iP1 iP2 iP3) := by
  unfold term
  rw [num_hom, num_cons_hom, den_hom]
  split <;> simp only [map_div₀, map_mul, map_natCast]

theorem pairTerm_hom (mu2 : α) (r12 : Int) (i : Nat) :
    pairTerm (mkTables (fun k => φ (sin0 k)) (fun k => φ (cos0 k)) (fun k => φ (sinI k))
      (fun k => φ (cosI k)) T L) L (φ mu2) r12 i =
      φ (pairTerm (mkTables sin0 cos0 sinI cosI T L) L mu2 r12 i) := by
  unfold pairTerm
  simp only [temp_eq_sum, term_hom, map_mul, map_sum, map_natCast]

/-- The accumulator computed from the images of the table values is the image of the
accumulator. -/
theorem rd_momentumCorr_hom (mu2 : α) (r12 : Int) (k : Nat) (hk : k < T) :
    rd (momentumCorr (mkTables (fun k => φ (sin0 k)) (fun k => φ (cos0 k))
      (fun k => φ (sinI k)) (fun k => φ (cosI k)) T L) T L (φ mu2) r12) k =
      φ (rd (momentumCorr (mkTables sin0 cos0 sinI cosI T L) T L mu2 r12) k) := by
  rw [rd_momentumCorr _ _ _ _ _ _ hk, rd_momentumCorr _ _ _ _ _ _ hk, map_sum]
  apply Finset.sum_congr rfl
  intro i _
  split
  · exact pairTerm_hom φ sin0 cos0 sinI cosI T L mu2 r12 i
  · exact (map_zero φ).symm

theorem normalization_hom : (normalization T L : β) = φ (normalization T L) := by
  simp only [normalization, map_div₀, map_mul, map_natCast, map_ofNat]

/-- The kernel computed from the images of the table values is the image of the kernel
output. -/
theorem rd_VKVK_core_hom (cosF : Nat → Nat → α) (mu : α) (r12 : Int) (t : Nat) (ht : t < T) :
    rd (VKVK_core (fun k => φ (sin0 k)) (fun k => φ (cos0 k)) (fun k => φ (sinI k))
      (fun k => φ (cosI k)) (fun k t => φ (cosF k t)) T L (φ mu) r12) t =
      φ (rd (VKVK_core sin0 cos0 sinI cosI cosF T L mu r12) t) := by
  rw [rd_VKVK_core _ _ _ _ _ _ _ _ _ _ ht, rd_VKVK_core _ _ _ _ _ _ _ _ _ _ ht, map_mul,
    map_sum, ← normalization_hom, ← map_mul φ mu mu]
  congr 1
  apply Finset.sum_congr rfl
  intro k hk
  rw [rd_momentumCorr_hom φ sin0 cos0 sinI cosI T L _ r12 k (Finset.mem_range.mp hk), map_mul]

end Hom

/-! ## The kernel only depends on the table values inside the tables -/

section Congr

variable {α : Type} [Field α]

theorem mkTables_congr {sin0 cos0 sinI cosI sin0' cos0' sinI' cosI' : Nat → α} {T L : Nat}
    (h1 : ∀ k, k < T → sin0 k = sin0' k) (h2 : ∀ k, k < T → cos0 k = cos0' k)
    (h3 : ∀ k, k < L → sinI k = sinI' k) (h4 : ∀ k, k < L → cosI k = cosI' k) :
    mkTables sin0 cos0 sinI cosI T L = mkTables sin0' cos0' sinI' cosI' T L := by
  unfold mkTables
  congr 1 <;> apply List.map_congr_left <;> intro k hk <;> rw [List.mem_range] at hk
  · exact h1 k hk
  · rw [h1 k hk]
  · exact h2 k hk
  · exact h3 k hk
  · rw [h3 k hk]
  · exact h4 k hk

theorem rd_VKVK_core_congr {sin0 cos0 sinI cosI sin0' cos0' sinI' cosI' : Nat → α}
    {cosF cosF' : Nat → Nat → α} {T L : Nat}
    (h1 : ∀ k, k < T → sin0 k = sin0' k) (h2 : ∀ k, k < T → cos0 k = cos0' k)
    (h3 : ∀ k, k < L → sinI k = sinI' k) (h4 : ∀ k, k < L → cosI k = cosI' k)
    (h5 : ∀ k t, k < T → t < T → cosF k t = cosF' k t) (mu : α) (r12 : Int) (t : Nat)
    (ht : t < T) :
    rd (VKVK_core sin0 cos0 sinI cosI cosF T L mu r12) t =
      rd (VKVK_core sin0' cos0' sinI' cosI' cosF' T L mu r12) t := by
  rw [rd_VKVK_core _ _ _ _ _ _ _ _ _ _ ht, rd_VKVK_core _ _ _ _ _ _ _ _ _ _ ht,
    mkTables_congr h1 h2 h3 h4]
  congr 1
  apply Finset.sum_congr rfl
  intro k hk
  rw [h5 k t (Finset.mem_range.mp hk) ht]

end Congr

end Vkvk

namespace Vkvk

/-! ## The kernel at `T = 4`, `L = 4` in exact arithmetic -/

/-- The embedding of `ℚ(√2)` in the reals. -/
theorem Q2.exists_hom :
    ∃ φ : Q2 →+* ℝ, ∀ x : Q2, φ x = (x.a : ℝ) + (x.b : ℝ) * Real.sqrt 2 := by
  have h2 : Real.sqrt 2 * Real.sqrt 2 = 2 := Real.mul_self_sqrt (by norm_num)
  refine ⟨{ toFun := fun x => (x.a : ℝ) + (x.b : ℝ) * Real.sqrt 2
            map_one' := ?_
            map_mul' := ?_
            map_zero' := ?_
            map_add' := ?_ }, fun x => rfl⟩
  · show (((1 : ℚ) : ℝ)) + (((0 : ℚ) : ℝ)) * Real.sqrt 2 = 1
    simp
  · intro x y
    show (((x.a * y.a + 2 * (x.b * y.b) : ℚ) : ℝ)) +
        (((x.a * y.b + x.b * y.a : ℚ) : ℝ)) * Real.sqrt 2 =
      ((x.a : ℝ) + (x.b : ℝ) * Real.sqrt 2) * ((y.a : ℝ) + (y.b : ℝ) * Real.sqrt 2)
    push_cast
    linear_combination (-(x.b : ℝ) * (y.b : ℝ)) * h2
  · show (((0 : ℚ) : ℝ)) + (((0 : ℚ) : ℝ)) * Real.sqrt 2 = 0
    simp
  · intro x y
    show (((x.a + y.a : ℚ) : ℝ)) + (((x.b + y.b : ℚ) : ℝ)) * Real.sqrt 2 =
      ((x.a : ℝ) + (x.b : ℝ) * Real.sqrt 2) + ((y.a : ℝ) + (y.b : ℝ) * Real.sqrt 2)
    push_cast
    ring

/-- The sign test of `ℚ(√2)` is sound for the real value. -/
theorem Q2.isPos_sound (x : Q2) (h : Q2.isPos x = true) :
    0 < (x.a : ℝ) + (x.b : ℝ) * Real.sqrt 2 := by
  have h2 : Real.sqrt 2 * Real.sqrt 2 = 2 := Real.mul_self_sqrt (by norm_num)
  have hs : 0 < Real.sqrt 2 := Real.sqrt_pos.2 (by norm_num)
  unfold Q2.isPos at h
  simp only [Bool.or_eq_true, Bool.and_eq_true, decide_eq_true_eq] at h
  rcases h with (⟨⟨ha, hb⟩, hne⟩ | ⟨⟨ha, hb⟩, hsq⟩) | ⟨⟨ha, hb⟩, hsq⟩
  · have ha' : (0 : ℝ) ≤ x.a := by exact_mod_cast ha
    have hb' : (0 : ℝ) ≤ x.b := by exact_mod_cast hb
    rcases hne with hne | hne
    · have : (0 : ℝ) < x.a := lt_of_le_of_ne ha' (by exact_mod_cast (Ne.symm hne))
      have := mul_nonneg hb' hs.le
      linarith
    · have : (0 : ℝ) < x.b := lt_of_le_of_ne hb' (by exact_mod_cast (Ne.symm hne))
      have := mul_pos this hs
      linarith
  · have ha' : (0 : ℝ) < x.a := by exact_mod_cast ha
    have hb' : (x.b : ℝ) < 0 := by exact_mod_cast hb
    have hsq' : 2 * ((x.b : ℝ) * x.b) < (x.a : ℝ) * x.a := by exact_mod_cast hsq
    by_contra hc
    have hc' : (x.a : ℝ) ≤ -(x.b : ℝ) * Real.sqrt 2 := by linarith
    have : (x.a : ℝ) * x.a ≤ (-(x.b : ℝ) * Real.sqrt 2) * (-(x.b : ℝ) * Real.sqrt 2) :=
      mul_le_mul hc' hc' ha'.le (by nlinarith)
    nlinarith
  · have ha' : (x.a : ℝ) < 0 := by exact_mod_cast ha
    have hb' : (0 : ℝ) < x.b := by exact_mod_cast hb
    have hsq' : (x.a : ℝ) * x.a < 2 * ((x.b : ℝ) * x.b) := by exact_mod_cast hsq
    by_contra hc
    have hc' : (x.b : ℝ) * Real.sqrt 2 ≤ -(x.a : ℝ) := by linarith
    have : ((x.b : ℝ) * Real.sqrt 2) * ((x.b : ℝ) * Real.sqrt 2) ≤ (-(x.a : ℝ)) * (-(x.a : ℝ)) :=
      mul_le_mul hc' hc' (by positivity) (by linarith)
    nlinarith

theorem cos_nat_mul_pi_div_two (m : Nat) :
    Real.cos ((m : ℝ) * (Real.pi / 2)) =
      if m % 4 = 0 then 1 else if m % 4 = 2 then -1 else 0 := by
  have hm : m = m % 4 + 4 * (m / 4) := (Nat.mod_add_div m 4).symm
  have e : (m : ℝ) * (Real.pi / 2) =
      ((m % 4 : ℕ) : ℝ) * (Real.pi / 2) + ((m / 4 : ℕ) : ℝ) * (2 * Real.pi) := by
    have : (m : ℝ) = ((m % 4 : ℕ) : ℝ) + 4 * ((m / 4 : ℕ) : ℝ) := by exact_mod_cast hm
    rw [this]
    ring
  rw [e, Real.cos_add_nat_mul_two_pi]
  have hlt : m % 4 < 4 := Nat.mod_lt _ (by decide)
  generalize m % 4 = r at hlt
  interval_cases r
  · simp
  · simp
  · have : (2 : ℝ) * (Real.pi / 2) = Real.pi := by ring
    simp [this]
  · have : (3 : ℝ) * (Real.pi / 2) = Real.pi / 2 + Real.pi := by ring
    simp [this, Real.cos_add_pi]

theorem sin_nat_mul_pi_div_two (m : Nat) :
    Real.sin ((m : ℝ) * (Real.pi / 2)) =
      if m % 4 = 1 then 1 else if m % 4 = 3 then -1 else 0 := by
  have e : (m : ℝ) * (Real.pi / 2) - Real.pi / 2 =
      ((m + 3 : ℕ) : ℝ) * (Real.pi / 2) - 2 * Real.pi := by
    push_cast
    ring
  rw [← Real.cos_sub_pi_div_two, e, Real.cos_sub_two_pi, cos_nat_mul_pi_div_two]
  have hlt : m % 4 < 4 := Nat.mod_lt _ (by decide)
  have h1 : (m + 3) % 4 = (m % 4 + 3) % 4 := by omega
  rw [h1]
  generalize m % 4 = r at hlt
  interval_cases r <;> simp

end Vkvk

namespace Vkvk

theorem Q2.table_values :
    (Q2.sin0 0 = ⟨0, 1 / 2⟩ ∧ Q2.sin0 1 = ⟨0, 1 / 2⟩ ∧ Q2.sin0 2 = ⟨0, -1 / 2⟩ ∧
      Q2.sin0 3 = ⟨0, -1 / 2⟩) ∧
    (Q2.cos0 0 = ⟨0, 1 / 2⟩ ∧ Q2.cos0 1 = ⟨0, -1 / 2⟩ ∧ Q2.cos0 2 = ⟨0, -1 / 2⟩ ∧
      Q2.cos0 3 = ⟨0, 1 / 2⟩) ∧
    (Q2.sinI 0 = ⟨0, 0⟩ ∧ Q2.sinI 1 = ⟨1, 0⟩ ∧ Q2.sinI 2 = ⟨0, 0⟩ ∧ Q2.sinI 3 = ⟨-1, 0⟩) ∧
    (Q2.cosI 0 = ⟨1, 0⟩ ∧ Q2.cosI 1 = ⟨0, 0⟩ ∧ Q2.cosI 2 = ⟨-1, 0⟩ ∧ Q2.cosI 3 = ⟨0, 0⟩) := by
  decide!

theorem p0_four (k : Nat) :
    p0 (Trig.mk Real.sin Real.cos Real.pi) 4 k = Real.pi / 4 + (k : ℝ) * (Real.pi / 2) := by
  simp only [p0, bc0, Nat.cast_ofNat]
  ring

theorem pI_four (k : Nat) :
    pI (Trig.mk Real.sin Real.cos Real.pi) 4 k = (k : ℝ) * (Real.pi / 2) := by
  simp only [pI, Nat.cast_ofNat]
  ring

theorem cosF_four (k t : Nat) :
    cosF (Trig.mk Real.sin Real.cos Real.pi) 4 k t =
      Real.cos (((k * t : ℕ) : ℝ) * (Real.pi / 2)) := by
  simp only [cosF, Nat.cast_ofNat, Nat.cast_mul]
  congr 1
  ring

section Four

variable (φ : Q2 →+* ℝ) (hφ : ∀ x : Q2, φ x = (x.a : ℝ) + (x.b : ℝ) * Real.sqrt 2)

include hφ

theorem sin_p0_four (k : Nat) (hk : k < 4) :
    Real.sin (p0 (Trig.mk Real.sin Real.cos Real.pi) 4 k) = φ (Q2.sin0 k) := by
  obtain ⟨⟨h0, h1, h2, h3⟩, _⟩ := Q2.table_values
  rw [p0_four, Real.sin_add, Real.sin_pi_div_four, Real.cos_pi_div_four,
    cos_nat_mul_pi_div_two, sin_nat_mul_pi_div_two, hφ]
  interval_cases k
  · rw [h0]; norm_num; ring
  · rw [h1]; norm_num; ring
  · rw [h2]; norm_num; ring
  · rw [h3]; norm_num; ring

theorem cos_p0_four (k : Nat) (hk : k < 4) :
    Real.cos (p0 (Trig.mk Real.sin Real.cos Real.pi) 4 k) = φ (Q2.cos0 k) := by
  obtain ⟨_, ⟨h0, h1, h2, h3⟩, _⟩ := Q2.table_values
  rw [p0_four, Real.cos_add, Real.sin_pi_div_four, Real.cos_pi_div_four,
    cos_nat_mul_pi_div_two, sin_nat_mul_pi_div_two, hφ]
  interval_cases k
  · rw [h0]; norm_num; ring
  · rw [h1]; norm_num; ring
  · rw [h2]; norm_num; ring
  · rw [h3]; norm_num; ring

theorem sin_pI_four (k : Nat) (hk : k < 4) :
    Real.sin (pI (Trig.mk Real.sin Real.cos Real.pi) 4 k) = φ (Q2.sinI k) := by
  obtain ⟨_, _, ⟨h0, h1, h2, h3⟩, _⟩ := Q2.table_values
  rw [pI_four, sin_nat_mul_pi_div_two, hφ]
  interval_cases k
  · rw [h0]; norm_num
  · rw [h1]; norm_num
  · rw [h2]; norm_num
  · rw [h3]; norm_num

theorem cos_pI_four (k : Nat) (hk : k < 4) :
    Real.cos (pI (Trig.mk Real.sin Real.cos Real.pi) 4 k) = φ (Q2.cosI k) := by
  obtain ⟨_, _, _, ⟨h0, h1, h2, h3⟩⟩ := Q2.table_values
  rw [pI_four, cos_nat_mul_pi_div_two, hφ]
  interval_cases k
  · rw [h0]; norm_num
  · rw [h1]; norm_num
  · rw [h2]; norm_num
  · rw [h3]; norm_num

theorem cosF_four_eq (k t : Nat) :
    cosF (Trig.mk Real.sin Real.cos Real.pi) 4 k t = φ (Q2.cosF4 k t) := by
  obtain ⟨_, _, _, ⟨h0, h1, h2, h3⟩⟩ := Q2.table_values
  rw [cosF_four, cos_nat_mul_pi_div_two, hφ]
  have e : Q2.cosF4 k t = Q2.cosI (k * t % 4) := rfl
  rw [e]
  have hlt : k * t % 4 < 4 := Nat.mod_lt _ (by decide)
  generalize k * t % 4 = r at hlt
  interval_cases r
  · rw [h0]; norm_num
  · rw [h1]; norm_num
  · rw [h2]; norm_num
  · rw [h3]; norm_num

/-- At `T = 4`, `L = 4` the real kernel output is the image of the kernel evaluated in
`ℚ(√2)`. -/
theorem rd_VKVK_four (mu : Q2) (r12 : Int) (t : Nat) (ht : t < 4) :
    rd (VKVK (Trig.mk Real.sin Real.cos Real.pi) 4 4 (φ mu) r12) t =
      φ (rd (VKVK_core Q2.sin0 Q2.cos0 Q2.sinI Q2.cosI Q2.cosF4 4 4 mu r12) t) := by
  rw [← rd_VKVK_core_hom φ Q2.sin0 Q2.cos0 Q2.sinI Q2.cosI 4 4 Q2.cosF4 mu r12 t ht]
  unfold VKVK
  exact rd_VKVK_core_congr (sin_p0_four φ hφ) (cos_p0_four φ hφ) (sin_pI_four φ hφ)
    (cos_pI_four φ hφ) (fun k t _ _ => cosF_four_eq φ hφ k t) (φ mu) r12 t ht

/-- At `T = 4`, `L = 4` the real accumulator is the image of the accumulator evaluated in
`ℚ(√2)`. -/
theorem rd_momentumCorr_four (mu2 : Q2) (r12 : Int) (k : Nat) (hk : k < 4) :
    rd (momentumCorr (tables (Trig.mk Real.sin Real.cos Real.pi) 4 4) 4 4 (φ mu2) r12) k =
      φ (rd (momentumCorr (mkTables Q2.sin0 Q2.cos0 Q2.sinI Q2.cosI 4 4) 4 4 mu2 r12) k) := by
  rw [← rd_momentumCorr_hom φ Q2.sin0 Q2.cos0 Q2.sinI Q2.cosI 4 4 mu2 r12 k hk]
  unfold tables
  rw [mkTables_congr (sin_p0_four φ hφ) (cos_p0_four φ hφ) (sin_pI_four φ hφ)
    (cos_pI_four φ hφ)]

end Four

end Vkvk

namespace Vkvk

/-! ## The concrete scenario `T = 4`, `L = 4`, `mu = 0.1`, `r12 = 1` (claim C8) -/

set_option maxRecDepth 100000 in
/-- Signs of the exact kernel output in `ℚ(√2)`: `-d[0]`, `-d[0] - d[t]` and `-d[0] + d[t]`
(`t = 1, 2, 3`) are positive. -/
theorem Q2.scenario_signs :
    (fun d : List Q2 =>
      Q2.isPos (-rd d 0) &&
      (Q2.isPos (-rd d 0 - rd d 1) && Q2.isPos (-rd d 0 + rd d 1)) &&
      (Q2.isPos (-rd d 0 - rd d 2) && Q2.isPos (-rd d 0 + rd d 2)) &&
      (Q2.isPos (-rd d 0 - rd d 3) && Q2.isPos (-rd d 0 + rd d 3)))
      (VKVK_core Q2.sin0 Q2.cos0 Q2.sinI Q2.cosI Q2.cosF4 4 4 (1 / 10) 1) = true := by
  decide!

/-- The scenario over the reals: `d[0] < 0` and `|d[t]| < -d[0]` for `t = 1, 2, 3`. -/
theorem scenario_real :
    rd (VKVK (Trig.mk Real.sin Real.cos Real.pi) 4 4 (1 / 10) 1) 0 < 0 ∧
    ∀ t, 1 ≤ t → t < 4 →
      |rd (VKVK (Trig.mk Real.sin Real.cos Real.pi) 4 4 (1 / 10) 1) t| <
        -rd (VKVK (Trig.mk Real.sin Real.cos Real.pi) 4 4 (1 / 10) 1) 0 := by
  obtain ⟨φ, hφ⟩ := Q2.exists_hom
  have hmu : (1 / 10 : ℝ) = φ (1 / 10) := by rw [map_div₀, map_one, map_ofNat]
  have hs := Q2.scenario_signs
  simp only [Bool.and_eq_true] at hs
  obtain ⟨⟨⟨h0, h1a, h1b⟩, h2a, h2b⟩, h3a, h3b⟩ := hs
  have key : ∀ x : Q2, Q2.isPos x = true → 0 < φ x := fun x hx => by
    rw [hφ]
    exact Q2.isPos_sound x hx
  have e : ∀ t, t < 4 → rd (VKVK (Trig.mk Real.sin Real.cos Real.pi) 4 4 (1 / 10) 1) t =
      φ (rd (VKVK_core Q2.sin0 Q2.cos0 Q2.sinI Q2.cosI Q2.cosF4 4 4 (1 / 10) 1) t) := by
    intro t ht
    rw [hmu]
    exact rd_VKVK_four φ hφ (1 / 10) 1 t ht
  have k0 := key _ h0
  have k1a := key _ h1a
  have k1b := key _ h1b
  have k2a := key _ h2a
  have k2b := key _ h2b
  have k3a := key _ h3a
  have k3b := key _ h3b
  simp only [map_sub, map_add, map_neg] at k0 k1a k1b k2a k2b k3a k3b
  refine ⟨by rw [e 0 (by decide)]; linarith, ?_⟩
  intro t ht1 ht4
  rw [e 0 (by decide), e t ht4, abs_lt]
  interval_cases t
  · constructor <;> linarith
  · constructor <;> linarith
  · constructor <;> linarith

/-- Claim C8 fails as stated. For `T = 4`, `L = 4`, `mu = 1/10`, `r12 = 1` the first element of
the kernel output is not strictly positive. -/
theorem scenario_first_not_pos :
    ¬ ((VKVK (Trig.mk Real.sin Real.cos Real.pi) 4 4 (1 / 10) 1).length = 4 ∧
      0 < rd (VKVK (Trig.mk Real.sin Real.cos Real.pi) 4 4 (1 / 10) 1) 0 ∧
      ∀ t, 1 ≤ t → t < 4 →
        |rd (VKVK (Trig.mk Real.sin Real.cos Real.pi) 4 4 (1 / 10) 1) t| <
          rd (VKVK (Trig.mk Real.sin Real.cos Real.pi) 4 4 (1 / 10) 1) 0) := by
  rintro ⟨_, h, _⟩
  exact absurd h (not_lt.2 scenario_real.1.le)

/-- Claim C8, amended. For `T = 4`, `L = 4`, `mu = 1/10`, `r12 = 1` the kernel returns a 4-element
array `d` whose first element is strictly negative, `d[0] < 0`, and whose other elements are
smaller in magnitude than the first, `|d[t]| < |d[0]|` for `t = 1, 2, 3`. -/
theorem scenario_first_neg :
    (VKVK (Trig.mk Real.sin Real.cos Real.pi) 4 4 (1 / 10) 1).length = 4 ∧
    rd (VKVK (Trig.mk Real.sin Real.cos Real.pi) 4 4 (1 / 10) 1) 0 < 0 ∧
    ∀ t, 1 ≤ t → t < 4 →
      |rd (VKVK (Trig.mk Real.sin Real.cos Real.pi) 4 4 (1 / 10) 1) t| <
        |rd (VKVK (Trig.mk Real.sin Real.cos Real.pi) 4 4 (1 / 10) 1) 0| := by
  refine ⟨length_VKVK _ _ _ _ _, scenario_real.1, ?_⟩
  intro t ht1 ht4
  rw [abs_of_neg scenario_real.1]
  exact scenario_real.2 t ht1 ht4

end Vkvk

namespace Vkvk

/-! ## The cache round trip (claim C7) -/

section FourTwo

variable (φ : Q2 →+* ℝ) (hφ : ∀ x : Q2, φ x = (x.a : ℝ) + (x.b : ℝ) * Real.sqrt 2)

include hφ

end FourTwo

end Vkvk

namespace Vkvk

/-! ## The multiplicity weights (claim C10) -/

/-- Claim C10 at `L = 3`. The loops visit `iP ∈ {0, 1}`; both values pass for their own mirror
image (`iP = 0` or `iP = L/2`), so `parMult = 1` on every triple and the weights sum to
`8`, not to `L^3 = 27`. -/
theorem weightSum_three : weightSum 3 = 8 ∧ weightSum 3 ≠ 3 ^ 3 := by
  decide

/-- The weights do sum to `L^3` at `L = 1` and at the even sizes `2, 4, 6, 8`. -/
theorem weightSum_small_even :
    weightSum 1 = 1 ^ 3 ∧ weightSum 2 = 2 ^ 3 ∧ weightSum 4 = 4 ^ 3 ∧ weightSum 6 = 6 ^ 3 ∧
      weightSum 8 = 8 ^ 3 := by
  decide

/-- At every odd `L = 3, 5, 7, 9` the weights sum to `(L-1)^3`. -/
theorem weightSum_small_odd :
    weightSum 3 = 2 ^ 3 ∧ weightSum 5 = 4 ^ 3 ∧ weightSum 7 = 6 ^ 3 ∧ weightSum 9 = 8 ^ 3 := by
  decide

end Vkvk

namespace Vkvk

/-! ## The accumulator and time reversal (claim C9) -/

section PairSums

variable {α : Type} [Field α]

/-- The summand is unchanged by exchanging the two temporal indices. -/
theorem term_swap (tb : Tables α) (L : Nat) (mu2 : α) (r12 : Int) (p q iP1 iP2 iP3 : Nat) :
    term tb L mu2 r12 p q iP1 iP2 iP3 = term tb L mu2 r12 q p iP1 iP2 iP3 := by
  have h1 : num tb mu2 r12 p q iP1 iP2 iP3 = num tb mu2 r12 q p iP1 iP2 iP3 := by
    unfold num Mp Mq
    ring
  have h2 : num_cons tb mu2 p q iP1 iP2 iP3 = num_cons tb mu2 q p iP1 iP2 iP3 := by
    unfold num_cons Mp Mq
    ring
  have h3 : den tb mu2 p q iP1 iP2 iP3 = den tb mu2 q p iP1 iP2 iP3 := by
    unfold den dmp dmq Mp Mq
    ring
  unfold term
  rw [h1, h2, h3]

theorem temp_swap (tb : Tables α) (L : Nat) (mu2 : α) (r12 : Int) (p q : Nat) :
    temp tb L mu2 r12 p q = temp tb L mu2 r12 q p := by
  simp only [temp_eq_sum]
  apply Finset.sum_congr rfl
  intro iP1 _
  apply Finset.sum_congr rfl
  intro iP2 _
  apply Finset.sum_congr rfl
  intro iP3 _
  exact term_swap tb L mu2 r12 p q iP1 iP2 iP3

/-- The loop over the linear index visits every pair `P0 ≤ Q0 < T` once. -/
theorem sum_linear_index (h : Nat → Nat → α) (T : Nat) :
    ∑ i in Finset.range (T * (T + 1) / 2), h (iP0 i) (iQ0 i) =
      ∑ q in Finset.range T, ∑ p in Finset.range (q + 1), h p q := by
  induction T with
  | zero => simp
  | succ T ih =>
    rw [half_mul_succ_succ T, add_assoc, Finset.sum_range_add, ih,
      Finset.sum_range_succ (fun q => ∑ p in Finset.range (q + 1), h p q) T]
    congr 1
    apply Finset.sum_congr rfl
    intro x hx
    have hx' : x ≤ T := Nat.lt_succ_iff.mp (Finset.mem_range.mp hx)
    have hd := decode_encode hx'
    unfold decode encode at hd
    rw [Prod.mk.injEq] at hd
    rw [hd.1, hd.2]

theorem sum_range_succ_eq_ite {M : Type} [AddCommMonoid M] (f : Nat → M) {q T : Nat}
    (hq : q < T) :
    ∑ p in Finset.range (q + 1), f p = ∑ p in Finset.range T, if p ≤ q then f p else 0 := by
  rw [← Finset.sum_filter]
  apply Finset.sum_congr _ (fun _ _ => rfl)
  ext p
  simp only [Finset.mem_range, Finset.mem_filter]
  omega

theorem pmq0_of_le {T p q : Nat} (hpq : p ≤ q) (hq : q < T) :
    pmq0 T p q = if p = q then 0 else T + p - q := by
  unfold pmq0
  split
  · next h =>
    subst h
    simp
  · next h =>
    apply Nat.mod_eq_of_lt
    omega

theorem pmq0_of_lt {T p q : Nat} (hqp : q < p) (hp : p < T) : pmq0 T p q = p - q := by
  unfold pmq0
  have e : T + p - q = (p - q) + T := by omega
  rw [e, Nat.add_mod_right]
  apply Nat.mod_eq_of_lt
  omega

/-- Exchanging the two temporal indices reflects the bin index. -/
theorem pmq0_reflect {T p q k : Nat} (hp : p < T) (hq : q < T) (hk : k < T) :
    pmq0 T p q = (T - k) % T ↔ pmq0 T q p = k := by
  have hk' : (T - k) % T = if k = 0 then 0 else T - k := by
    split
    · next h =>
      subst h
      simp
    · next h =>
      apply Nat.mod_eq_of_lt
      omega
  rw [hk']
  rcases Nat.lt_trichotomy p q with h | h | h
  · rw [pmq0_of_le h.le hq, pmq0_of_lt h hq]
    split <;> split <;> omega
  · subst h
    rw [pmq0_of_le le_rfl hp, if_pos rfl]
    split <;> omega
  · rw [pmq0_of_lt h hp, pmq0_of_le h.le hp]
    split <;> split <;> omega

end PairSums

end Vkvk

namespace Vkvk

section Symmetrised

variable {α : Type} [Field α]

/-- Bin `k` of the accumulator as a sum over the square of index pairs: a pair `P0 ≤ Q0`
contributes to bin `(T+P0-Q0)%T` with weight 1 on the diagonal and 2 off it, a pair
`P0 > Q0` contributes nothing. -/
theorem rd_momentumCorr_square (tb : Tables α) (T L : Nat) (hb : T * (T + 1) < 2 ^ 31)
    (mu2 : α) (r12 : Int) (k : Nat) (hk : k < T) :
    rd (momentumCorr tb T L mu2 r12) k =
      ∑ q in Finset.range T, ∑ p in Finset.range T,
        if p ≤ q then
          (if pmq0 T p q = k then
            temp tb L mu2 r12 p q * (((1 + if p ≠ q then 1 else 0 : Nat)) : α) else 0)
        else 0 := by
  rw [rd_momentumCorr _ _ _ _ _ _ hk, loopCount_eq T hb]
  unfold pairTerm
  rw [sum_linear_index (fun p q => if pmq0 T p q = k then
    temp tb L mu2 r12 p q * (((1 + if p ≠ q then 1 else 0 : Nat)) : α) else 0) T]
  apply Finset.sum_congr rfl
  intro q hq
  exact sum_range_succ_eq_ite _ (Finset.mem_range.mp hq)

/-- The accumulator plus its time reversal is twice the sum over all ordered pairs. -/
theorem momentumCorr_add_reflect (tb : Tables α) (T L : Nat) (hb : T * (T + 1) < 2 ^ 31)
    (mu2 : α) (r12 : Int) (k : Nat) (hk : k < T) :
    rd (momentumCorr tb T L mu2 r12) k + rd (momentumCorr tb T L mu2 r12) ((T - k) % T) =
      2 * ∑ p in Finset.range T, ∑ q in Finset.range T,
        if pmq0 T p q = k then temp tb L mu2 r12 p q else 0 := by
  have hk' : (T - k) % T < T := Nat.mod_lt _ (by omega)
  have e2 : rd (momentumCorr tb T L mu2 r12) ((T - k) % T) =
      ∑ p in Finset.range T, ∑ q in Finset.range T,
        if q ≤ p then
          (if pmq0 T p q = k then
            temp tb L mu2 r12 p q * (((1 + if q ≠ p then 1 else 0 : Nat)) : α) else 0)
        else 0 := by
    rw [rd_momentumCorr_square _ _ _ hb _ _ _ hk']
    apply Finset.sum_congr rfl
    intro p hp
    apply Finset.sum_congr rfl
    intro q hq
    rw [Finset.mem_range] at hp hq
    rw [temp_swap tb L mu2 r12 q p]
    by_cases h : pmq0 T p q = k
    · rw [if_pos ((pmq0_reflect hq hp hk).2 h), if_pos h]
    · rw [if_neg (fun h' => h ((pmq0_reflect hq hp hk).1 h')), if_neg h]
  rw [rd_momentumCorr_square _ _ _ hb _ _ _ hk, e2, Finset.sum_comm, ← Finset.sum_add_distrib,
    Finset.mul_sum]
  apply Finset.sum_congr rfl
  intro p _
  rw [← Finset.sum_add_distrib, Finset.mul_sum]
  apply Finset.sum_congr rfl
  intro q _
  rcases Nat.lt_trichotomy p q with h | h | h
  · have h1 : p ≤ q := h.le
    have h2 : ¬ q ≤ p := by omega
    have h3 : p ≠ q := by omega
    simp only [h1, h2, h3, if_true, if_false, ne_eq, not_false_eq_true]
    split <;> push_cast <;> ring
  · subst h
    simp only [le_refl, if_true, ne_eq, not_true_eq_false, if_false]
    split <;> push_cast <;> ring
  · have h1 : ¬ p ≤ q := by omega
    have h2 : q ≤ p := h.le
    have h3 : q ≠ p := by omega
    simp only [h1, h2, h3, if_true, if_false, ne_eq, not_false_eq_true]
    split <;> push_cast <;> ring

/-- The sum over all ordered pairs is symmetric under time reversal of the bin. -/
theorem fullCorr_reflect (tb : Tables α) (T L : Nat) (mu2 : α) (r12 : Int) (k : Nat)
    (hk : k < T) :
    (∑ p in Finset.range T, ∑ q in Finset.range T,
        if pmq0 T p q = (T - k) % T then temp tb L mu2 r12 p q else 0) =
      ∑ p in Finset.range T, ∑ q in Finset.range T,
        if pmq0 T p q = k then temp tb L mu2 r12 p q else 0 := by
  rw [Finset.sum_comm]
  apply Finset.sum_congr rfl
  intro q hq
  apply Finset.sum_congr rfl
  intro p hp
  rw [Finset.mem_range] at hp hq
  rw [temp_swap tb L mu2 r12 p q]
  by_cases h : pmq0 T q p = k
  · rw [if_pos ((pmq0_reflect hp hq hk).2 h), if_pos h]
  · rw [if_neg (fun h' => h ((pmq0_reflect hp hq hk).1 h')), if_neg h]

end Symmetrised

set_option maxRecDepth 100000 in
/-- In exact arithmetic at `T = 4`, `L = 4`, `mu = 1/10`, `r12 = 1`: `c[1] - c[3] > 0`. -/
theorem Q2.accumulator_signs :
    (fun c : List Q2 => Q2.isPos (rd c 1 - rd c 3))
      (momentumCorr (mkTables Q2.sin0 Q2.cos0 Q2.sinI Q2.cosI 4 4) 4 4 (1 / 10 * (1 / 10)) 1) =
      true := by
  decide!

/-- Claim C9 fails as stated. At `T = 4`, `L = 4`, `mu = 1/10`, `r12 = 1` the accumulator `c` is
not symmetric under time reversal: `c[1] ≠ c[3]`. -/
theorem momentumCorr_not_symmetric :
    ¬ ∀ k, k < 4 →
      rd (momentumCorr (tables (Trig.mk Real.sin Real.cos Real.pi) 4 4) 4 4
          (1 / 10 * (1 / 10)) 1) k =
        rd (momentumCorr (tables (Trig.mk Real.sin Real.cos Real.pi) 4 4) 4 4
          (1 / 10 * (1 / 10)) 1) ((4 - k) % 4) := by
  intro hsym
  obtain ⟨φ, hφ⟩ := Q2.exists_hom
  have hmu : (1 / 10 * (1 / 10) : ℝ) = φ (1 / 10 * (1 / 10)) := by
    rw [map_mul, map_div₀, map_one, map_ofNat]
  have h13 := hsym 1 (by decide)
  have e3 : (4 - 1) % 4 = 3 := by decide
  rw [e3, hmu, rd_momentumCorr_four φ hφ _ 1 1 (by decide),
    rd_momentumCorr_four φ hφ _ 1 3 (by decide)] at h13
  have hs := Q2.accumulator_signs
  have hpos := Q2.isPos_sound _ hs
  rw [← hφ, map_sub, h13] at hpos
  simp at hpos

/-- Claim C9, amended. For positive `T` with `T*(T+1) < 2^31` (the `int` loop bound of line 68
does not overflow) and positive `L`, real `mu` and integer `r12`, the accumulator `c`
satisfies, for `0 ≤ k < T`: `c[k] + c[(T - k) mod T]` is twice the sum of the per-pair
spatial sums `temp` over all ordered pairs `(P0, Q0)` in `[0,T) × [0,T)` with
`(T + P0 - Q0) mod T = k`, and this sum over all ordered pairs is symmetric under
`k ↦ (T - k) mod T`. -/
theorem momentumCorr_symmetrised (T L : Nat) (hT : 0 < T) (hb : T * (T + 1) < 2 ^ 31)
    (hL : 0 < L) (mu : ℝ) (r12 : ℤ) (k : Nat) (hk : k < T) :
    rd (momentumCorr (tables (Trig.mk Real.sin Real.cos Real.pi) T L) T L (mu * mu) r12) k +
        rd (momentumCorr (tables (Trig.mk Real.sin Real.cos Real.pi) T L) T L (mu * mu) r12)
          ((T - k) % T) =
      2 * ∑ p in Finset.range T, ∑ q in Finset.range T,
        (if pmq0 T p q = k then
          temp (tables (Trig.mk Real.sin Real.cos Real.pi) T L) L (mu * mu) r12 p q else 0) ∧
    (∑ p in Finset.range T, ∑ q in Finset.range T,
        if pmq0 T p q = (T - k) % T then
          temp (tables (Trig.mk Real.sin Real.cos Real.pi) T L) L (mu * mu) r12 p q else 0) =
      ∑ p in Finset.range T, ∑ q in Finset.range T,
        if pmq0 T p q = k then
          temp (tables (Trig.mk Real.sin Real.cos Real.pi) T L) L (mu * mu) r12 p q else 0 :=
  ⟨momentumCorr_add_reflect _ T L hb _ r12 k hk, fullCorr_reflect _ T L _ r12 k hk⟩

/-- Witness of `momentumCorr_symmetrised` at `T = 4`, `L = 4`, `mu = 1/10`, `r12 = 1`,
`k = 1`. -/
theorem momentumCorr_symmetrised_witness :
    rd (momentumCorr (tables (Trig.mk Real.sin Real.cos Real.pi) 4 4) 4 4
          (1 / 10 * (1 / 10)) 1) 1 +
        rd (momentumCorr (tables (Trig.mk Real.sin Real.cos Real.pi) 4 4) 4 4
          (1 / 10 * (1 / 10)) 1) ((4 - 1) % 4) =
      2 * ∑ p in Finset.range 4, ∑ q in Finset.range 4,
        (if pmq0 4 p q = 1 then
          temp (tables (Trig.mk Real.sin Real.cos Real.pi) 4 4) 4 (1 / 10 * (1 / 10)) 1 p q
        else 0) ∧
    (∑ p in Finset.range 4, ∑ q in Finset.range 4,
        if pmq0 4 p q = (4 - 1) % 4 then
          temp (tables (Trig.mk Real.sin Real.cos Real.pi) 4 4) 4 (1 / 10 * (1 / 10)) 1 p q
        else 0) =
      ∑ p in Finset.range 4, ∑ q in Finset.range 4,
        if pmq0 4 p q = 1 then
          temp (tables (Trig.mk Real.sin Real.cos Real.pi) 4 4) 4 (1 / 10 * (1 / 10)) 1 p q
        else 0 :=
  momentumCorr_symmetrised 4 4 (by decide) (by decide) (by decide) (1 / 10) 1 1 (by decide)

end Vkvk

namespace Vkvk

/-! ## The symmetry-reduced spatial sum -/

section Sorted

/-- The multiplicity read from `permMultTable` is 1 when the three values are equal, 3 when
exactly two are equal, 6 when they are distinct. -/
theorem permMult_eq (a b c : Nat) :
    permMult a b c =
      if a = b ∧ b = c then 1 else if a = b ∨ b = c ∨ c = a then 3 else 6 := by
  unfold permMult permIndex permMultTable
  by_cases h1 : a = b
  · subst h1
    by_cases h2 : a = c
    · subst h2
      simp
    · have h3 : ¬ c = a := fun e => h2 e.symm
      simp [h2, h3]
  · by_cases h2 : b = c
    · subst h2
      have h3 : ¬ b = a := fun e => h1 e.symm
      simp [h1, h3]
    · by_cases h3 : c = a
      · subst h3
        simp [h1, h2]
      · simp [h1, h2, h3]

/-- Every triple has, counted with `permMult`, exactly six sorted rearrangements. -/
theorem permMult_orbit (a b c : Nat) :
    (if c ≤ b ∧ b ≤ a then permMult a b c else 0) +
      (if b ≤ c ∧ c ≤ a then permMult a c b else 0) +
      (if c ≤ a ∧ a ≤ b then permMult b a c else 0) +
      (if a ≤ c ∧ c ≤ b then permMult b c a else 0) +
      (if b ≤ a ∧ a ≤ c then permMult c a b else 0) +
      (if a ≤ b ∧ b ≤ c then permMult c b a else 0) = 6 := by
  simp only [permMult_eq]
  rcases Nat.lt_trichotomy a b with h1 | h1 | h1 <;>
  rcases Nat.lt_trichotomy b c with h2 | h2 | h2 <;>
  rcases Nat.lt_trichotomy a c with h3 | h3 | h3 <;>
  first
  | omega
  | simp (disch := omega) only [if_pos, if_neg]

variable {M : Type} [AddCommMonoid M]

theorem sum_cube_swap12 (g : Nat → Nat → Nat → M) (n : Nat) :
    (∑ a in Finset.range n, ∑ b in Finset.range n, ∑ c in Finset.range n, g b a c) =
      ∑ a in Finset.range n, ∑ b in Finset.range n, ∑ c in Finset.range n, g a b c :=
  Finset.sum_comm

theorem sum_cube_swap23 (g : Nat → Nat → Nat → M) (n : Nat) :
    (∑ a in Finset.range n, ∑ b in Finset.range n, ∑ c in Finset.range n, g a c b) =
      ∑ a in Finset.range n, ∑ b in Finset.range n, ∑ c in Finset.range n, g a b c :=
  Finset.sum_congr rfl (fun _ _ => Finset.sum_comm)

theorem sum_cube_rot1 (g : Nat → Nat → Nat → M) (n : Nat) :
    (∑ a in Finset.range n, ∑ b in Finset.range n, ∑ c in Finset.range n, g b c a) =
      ∑ a in Finset.range n, ∑ b in Finset.range n, ∑ c in Finset.range n, g a b c := by
  rw [sum_cube_swap12 (fun x y z => g x z y) n, sum_cube_swap23 g n]

theorem sum_cube_rot2 (g : Nat → Nat → Nat → M) (n : Nat) :
    (∑ a in Finset.range n, ∑ b in Finset.range n, ∑ c in Finset.range n, g c a b) =
      ∑ a in Finset.range n, ∑ b in Finset.range n, ∑ c in Finset.range n, g a b c := by
  rw [sum_cube_swap23 (fun x y z => g y x z) n, sum_cube_swap12 g n]

theorem sum_cube_swap13 (g : Nat → Nat → Nat → M) (n : Nat) :
    (∑ a in Finset.range n, ∑ b in Finset.range n, ∑ c in Finset.range n, g c b a) =
      ∑ a in Finset.range n, ∑ b in Finset.range n, ∑ c in Finset.range n, g a b c := by
  rw [sum_cube_swap12 (fun x y z => g z x y) n, sum_cube_rot2 g n]

/-- The sum of a symmetric function over the cube `[0,n)³` is the sum over the sorted triples
`c ≤ b ≤ a < n` weighted by `permMult`. -/
theorem sum_cube_eq_sorted (f : Nat → Nat → Nat → M) (h12 : ∀ a b c, f a b c = f b a c)
    (h23 : ∀ a b c, f a b c = f a c b) (h6 : ∀ x y : M, 6 • x = 6 • y → x = y) (n : Nat) :
    (∑ a in Finset.range n, ∑ b in Finset.range n, ∑ c in Finset.range n, f a b c) =
      ∑ a in Finset.range n, ∑ b in Finset.range (a + 1), ∑ c in Finset.range (b + 1),
        permMult a b c • f a b c := by
  have hW : (∑ a in Finset.range n, ∑ b in Finset.range n, ∑ c in Finset.range n,
        (if c ≤ b ∧ b ≤ a then permMult a b c else 0) • f a b c) =
      ∑ a in Finset.range n, ∑ b in Finset.range (a + 1), ∑ c in Finset.range (b + 1),
        permMult a b c • f a b c := by
    apply Finset.sum_congr rfl
    intro a ha
    rw [sum_range_succ_eq_ite _ (Finset.mem_range.mp ha)]
    apply Finset.sum_congr rfl
    intro b hb
    by_cases hba : b ≤ a
    · rw [if_pos hba, sum_range_succ_eq_ite _ (Finset.mem_range.mp hb)]
      apply Finset.sum_congr rfl
      intro c _
      by_cases hcb : c ≤ b
      · rw [if_pos ⟨hcb, hba⟩, if_pos hcb]
      · rw [if_neg (fun h => hcb h.1), if_neg hcb, zero_smul]
    · rw [if_neg hba]
      apply Finset.sum_eq_zero
      intro c _
      rw [if_neg (fun h => hba h.2), zero_smul]
  rw [← hW]
  apply h6
  have e : ∀ a b c, (6 : ℕ) • f a b c =
      (if c ≤ b ∧ b ≤ a then permMult a b c else 0) • f a b c +
      (if b ≤ c ∧ c ≤ a then permMult a c b else 0) • f a c b +
      (if c ≤ a ∧ a ≤ b then permMult b a c else 0) • f b a c +
      (if a ≤ c ∧ c ≤ b then permMult b c a else 0) • f b c a +
      (if b ≤ a ∧ a ≤ c then permMult c a b else 0) • f c a b +
      (if a ≤ b ∧ b ≤ c then permMult c b a else 0) • f c b a := by
    intro a b c
    have e1 : f a c b = f a b c := (h23 a b c).symm
    have e2 : f b a c = f a b c := (h12 a b c).symm
    have e3 : f b c a = f a b c := by rw [← h23 b a c, ← h12 a b c]
    have e4 : f c a b = f a b c := by rw [h12 c a b, ← h23 a b c]
    have e5 : f c b a = f a b c := by rw [h12 c b a, e3]
    rw [e1, e2, e3, e4, e5, ← add_smul, ← add_smul, ← add_smul, ← add_smul, ← add_smul,
      permMult_orbit]
  simp only [Finset.smul_sum, e, Finset.sum_add_distrib]
  rw [sum_cube_swap23 (fun a b c => (if c ≤ b ∧ b ≤ a then permMult a b c else 0) • f a b c) n,
    sum_cube_swap12 (fun a b c => (if c ≤ b ∧ b ≤ a then permMult a b c else 0) • f a b c) n,
    sum_cube_rot1 (fun a b c => (if c ≤ b ∧ b ≤ a then permMult a b c else 0) • f a b c) n,
    sum_cube_rot2 (fun a b c => (if c ≤ b ∧ b ≤ a then permMult a b c else 0) • f a b c) n,
    sum_cube_swap13 (fun a b c => (if c ≤ b ∧ b ≤ a then permMult a b c else 0) • f a b c) n]
  simp only [succ_nsmul, zero_nsmul, zero_add, Finset.sum_add_distrib]

end Sorted

/-! ## The multiplicity weights in general -/

theorem weightSum_eq_sum (L : Nat) :
    weightSum L =
      ∑ a in Finset.range (L / 2 + 1), ∑ b in Finset.range (a + 1),
        ∑ c in Finset.range (b + 1), parMult L a b c * permMult a b c := by
  unfold weightSum
  simp only [foldl_add_eq, sum_map_range, zero_add]

/-- The reflection weights of the components `0 .. L/2` sum to `2 * (L/2)` when `L ≥ 2`. -/
theorem sum_reflection_weights (h : Nat) (hh : 1 ≤ h) :
    (∑ x in Finset.range (h + 1), ((if x ≠ 0 ∧ x ≠ h then 1 else 0) + 1)) = 2 * h := by
  obtain ⟨m, rfl⟩ : ∃ m, h = m + 1 := ⟨h - 1, by omega⟩
  rw [Finset.sum_range_succ, Finset.sum_range_succ']
  have e : ∀ x ∈ Finset.range m,
      ((if x + 1 ≠ 0 ∧ x + 1 ≠ m + 1 then 1 else 0) + 1) = 2 := by
    intro x hx
    rw [Finset.mem_range] at hx
    rw [if_pos ⟨by omega, by omega⟩]
  rw [Finset.sum_congr rfl e]
  simp
  omega

/-- For `L ≥ 2` the weights `parMult * permMult` of the visited triples sum to
`(2 * (L/2))^3`. -/
theorem weightSum_eq (L : Nat) (hL : 2 ≤ L) : weightSum L = (2 * (L / 2)) ^ 3 := by
  rw [weightSum_eq_sum]
  have h := sum_cube_eq_sorted (fun a b c => parMult L a b c)
    (fun a b c => by unfold parMult; ring) (fun a b c => by unfold parMult; ring)
    (fun x y hxy => by simpa using hxy) (L / 2 + 1)
  simp only [smul_eq_mul] at h
  have h' : (∑ a in Finset.range (L / 2 + 1), ∑ b in Finset.range (a + 1),
        ∑ c in Finset.range (b + 1), parMult L a b c * permMult a b c) =
      ∑ a in Finset.range (L / 2 + 1), ∑ b in Finset.range (a + 1),
        ∑ c in Finset.range (b + 1), permMult a b c * parMult L a b c := by
    simp only [mul_comm]
  rw [h', ← h, ← sum_reflection_weights (L / 2) (by omega)]
  unfold parMult
  simp only [← Finset.mul_sum, ← Finset.sum_mul]
  ring

/-- For even `L ≥ 2` the weights account for all `L^3` momentum triples. -/
theorem weightSum_even (L : Nat) (hL : 2 ≤ L) (heven : L % 2 = 0) : weightSum L = L ^ 3 := by
  rw [weightSum_eq L hL]
  congr 1
  omega

/-- For odd `L ≥ 3` the weights account for `(L-1)^3` momentum triples only. -/
theorem weightSum_odd (L : Nat) (hL : 3 ≤ L) (hodd : L % 2 = 1) :
    weightSum L = (L - 1) ^ 3 := by
  rw [weightSum_eq L (by omega)]
  congr 1
  omega

end Vkvk

namespace Vkvk

/-! ## The permutation multiplicity (claim C13) -/

theorem permutations_three (a b c : Nat) :
    [a, b, c].permutations =
      [[a, b, c], [b, a, c], [c, b, a], [b, c, a], [c, a, b], [a, c, b]] := by
  simp [List.permutations, List.permutationsAux_cons, List.permutationsAux2]

/-- The table index counts the pairs of unequal components: it is 0, 2 or 3. -/
theorem permIndex_eq (a b c : Nat) :
    permIndex a b c = if a = b ∧ b = c then 0 else if a = b ∨ b = c ∨ c = a then 2 else 3 := by
  unfold permIndex
  by_cases h1 : a = b
  · subst h1
    by_cases h2 : a = c
    · subst h2
      simp
    · have h3 : ¬ c = a := fun e => h2 e.symm
      simp [h2, h3]
  · by_cases h2 : b = c
    · subst h2
      have h3 : ¬ b = a := fun e => h1 e.symm
      simp [h1, h3]
    · by_cases h3 : c = a
      · subst h3
        simp [h1, h2]
      · simp [h1, h2, h3]

/-- The number of distinct orderings of a triple. -/
theorem orderings_three (a b c : Nat) :
    ([a, b, c].permutations.dedup).length =
      if a = b ∧ b = c then 1 else if a = b ∨ b = c ∨ c = a then 3 else 6 := by
  rw [permutations_three]
  by_cases h1 : a = b
  · subst h1
    by_cases h2 : a = c
    · subst h2
      simp
    · have h3 : ¬ c = a := fun e => h2 e.symm
      simp [h2, h3, List.dedup_cons_of_mem, List.dedup_cons_of_not_mem]
  · by_cases h2 : b = c
    · subst h2
      have h3 : ¬ b = a := fun e => h1 e.symm
      simp [h1, h3, List.dedup_cons_of_mem, List.dedup_cons_of_not_mem]
    · by_cases h3 : c = a
      · subst h3
        have h4 : ¬ b = c := fun e => h1 e.symm
        simp [h1, h2, h4, List.dedup_cons_of_mem, List.dedup_cons_of_not_mem]
      · have h4 : ¬ b = a := fun e => h1 e.symm
        have h5 : ¬ c = b := fun e => h2 e.symm
        have h6 : ¬ a = c := fun e => h3 e.symm
        simp [h1, h2, h3, h4, h5, h6, List.dedup_cons_of_mem, List.dedup_cons_of_not_mem]

end Vkvk

namespace Vkvk

/-- Claim C13. For every triple with `iP1 ≥ iP2 ≥ iP3`, the table index
`(iP1 != iP2) + (iP2 != iP3) + (iP3 != iP1)` is 0, 2 or 3 and never 1, and `permMult` read
from `{1,1,3,6}` is the number of distinct orderings of the triple: 1 when all three values
are equal, 3 when exactly two are equal, 6 when all three are distinct. -/
theorem permMult_counts_orderings (iP1 iP2 iP3 : Nat) (h12 : iP2 ≤ iP1) (h23 : iP3 ≤ iP2) :
    (permIndex iP1 iP2 iP3 = 0 ∨ permIndex iP1 iP2 iP3 = 2 ∨ permIndex iP1 iP2 iP3 = 3) ∧
    permIndex iP1 iP2 iP3 ≠ 1 ∧
    permMult iP1 iP2 iP3 = ([iP1, iP2, iP3].permutations.dedup).length ∧
    (iP1 = iP2 ∧ iP2 = iP3 → permMult iP1 iP2 iP3 = 1) ∧
    ((iP1 = iP2 ∧ iP2 ≠ iP3) ∨ (iP1 ≠ iP2 ∧ iP2 = iP3) → permMult iP1 iP2 iP3 = 3) ∧
    (iP1 ≠ iP2 ∧ iP2 ≠ iP3 ∧ iP3 ≠ iP1 → permMult iP1 iP2 iP3 = 6) := by
  have hi := permIndex_eq iP1 iP2 iP3
  have hm := permMult_eq iP1 iP2 iP3
  have ho := orderings_three iP1 iP2 iP3
  refine ⟨?_, ?_, ?_, ?_, ?_, ?_⟩
  · rw [hi]
    split_ifs <;> simp
  · rw [hi]
    split_ifs <;> simp
  · rw [hm, ho]
  · intro h
    rw [hm, if_pos h]
  · intro h
    rw [hm, if_neg (by omega), if_pos (by omega)]
  · intro h
    rw [hm, if_neg (by omega), if_neg (by omega)]

/-- Witness of `permMult_counts_orderings` at the triple `(2, 1, 1)`. -/
theorem permMult_counts_orderings_witness :
    (permIndex 2 1 1 = 0 ∨ permIndex 2 1 1 = 2 ∨ permIndex 2 1 1 = 3) ∧
    permIndex 2 1 1 ≠ 1 ∧
    permMult 2 1 1 = ([2, 1, 1].permutations.dedup).length ∧
    ((2 : Nat) = 1 ∧ (1 : Nat) = 1 → permMult 2 1 1 = 1) ∧
    (((2 : Nat) = 1 ∧ (1 : Nat) ≠ 1) ∨ ((2 : Nat) ≠ 1 ∧ (1 : Nat) = 1) → permMult 2 1 1 = 3) ∧
    ((2 : Nat) ≠ 1 ∧ (1 : Nat) ≠ 1 ∧ (1 : Nat) ≠ 2 → permMult 2 1 1 = 6) :=
  permMult_counts_orderings 2 1 1 (by decide) (by decide)

/-! ## The bin index (claim C14) -/

/-- Claim C14. For every `T ≥ 1` and every linear index `i` in `[0, T(T+1)/2)`, the bin index
`pmq0 = (T + iP0 - iQ0) % T` satisfies `0 ≤ pmq0 < T`, is congruent to `iP0 - iQ0` modulo `T`,
and is 0 exactly when `iP0 = iQ0`. -/
theorem pmq0_in_range (T : Nat) (hT : 1 ≤ T) (i : Nat) (hi : i < T * (T + 1) / 2) :
    0 ≤ pmq0 T (iP0 i) (iQ0 i) ∧ pmq0 T (iP0 i) (iQ0 i) < T ∧
    ((pmq0 T (iP0 i) (iQ0 i) : ℤ) ≡ (iP0 i : ℤ) - (iQ0 i : ℤ) [ZMOD (T : ℤ)]) ∧
    (pmq0 T (iP0 i) (iQ0 i) = 0 ↔ iP0 i = iQ0 i) := by
  have hq : iQ0 i < T := iQ0_lt hi
  have hp : iP0 i ≤ iQ0 i := iP0_le i
  refine ⟨Nat.zero_le _, Nat.mod_lt _ hT, ?_, ?_⟩
  · unfold pmq0
    have e : ((T + iP0 i - iQ0 i : ℕ) : ℤ) = (iP0 i : ℤ) - (iQ0 i : ℤ) + (T : ℤ) := by
      rw [Nat.cast_sub (by omega)]
      push_cast
      ring
    rw [Int.natCast_mod, e]
    exact (Int.mod_modEq _ _).trans (Int.add_modEq_right)
  · rw [pmq0_of_le hp hq]
    split <;> omega

/-- Witness of `pmq0_in_range` at `T = 4`, `i = 4` (`iP0 = 1`, `iQ0 = 2`, bin 3). -/
theorem pmq0_in_range_witness :
    0 ≤ pmq0 4 (iP0 4) (iQ0 4) ∧ pmq0 4 (iP0 4) (iQ0 4) < 4 ∧
    ((pmq0 4 (iP0 4) (iQ0 4) : ℤ) ≡ (iP0 4 : ℤ) - (iQ0 4 : ℤ) [ZMOD ((4 : ℕ) : ℤ)]) ∧
    (pmq0 4 (iP0 4) (iQ0 4) = 0 ↔ iP0 4 = iQ0 4) :=
  pmq0_in_range 4 (by decide) 4 (by decide)

/-! ## The Wilson-parameter tag of `main` (claim C16) -/

/-- Claim C16 fails as stated. At `r2 = -1`, the first value `main` sweeps over, the tag number
is `(-1 + 1) / 2 = 0`, which is not in `{1, 2, 3}`. -/
theorem r2tag_not_in_one_two_three :
    ¬ ∀ r2, r2 ∈ r2Sweep → (r2tag r2 = 1 ∨ r2tag r2 = 2 ∨ r2tag r2 = 3) := by
  intro h
  have := h (-1) (by decide)
  revert this
  decide

/-- Claim C16, amended. For each value of `r2` that `main` sweeps over (`-1`, `+1` and `0`), the
tag number `r2tag` written into the cache key lies in `{0, 1, 2}`: it is `0` at `r2 = -1`, `1`
at `r2 = 1` and `2` at `r2 = 0`. -/
theorem r2tag_values (r2 : Int) (h : r2 ∈ r2Sweep) :
    (r2tag r2 = 0 ∨ r2tag r2 = 1 ∨ r2tag r2 = 2) ∧
    (r2 = -1 → r2tag r2 = 0) ∧ (r2 = 1 → r2tag r2 = 1) ∧ (r2 = 0 → r2tag r2 = 2) := by
  unfold r2Sweep at h
  simp only [List.mem_cons, List.mem_singleton, List.not_mem_nil, or_false] at h
  rcases h with h | h | h <;> subst h <;> decide

/-- Witness of `r2tag_values` at `r2 = -1`. -/
theorem r2tag_values_witness :
    (r2tag (-1) = 0 ∨ r2tag (-1) = 1 ∨ r2tag (-1) = 2) ∧
    ((-1 : Int) = -1 → r2tag (-1) = 0) ∧ ((-1 : Int) = 1 → r2tag (-1) = 1) ∧
    ((-1 : Int) = 0 → r2tag (-1) = 2) :=
  r2tag_values (-1) (by decide)

/-! ## Positivity of the denominator (claim C17) -/

/-- Claim C17. For positive `T` and `L`, every real `mu` (including `mu = 0`) and every index
combination visited by the kernel (`iP0, iQ0 < T`, `iP1, iP2, iP3 ≤ L/2`), both denominator
factors `dmp` and `dmq` are strictly positive, so `den = dmp*dmq > 0` and the kernel never
divides by zero. -/
theorem den_factors_pos (T L : Nat) (hT : 0 < T) (hL : 0 < L) (mu : ℝ) (p q iP1 iP2 iP3 : Nat)
    (hp : p < T) (hq : q < T) (h1 : iP1 ≤ L / 2) (h2 : iP2 ≤ L / 2) (h3 : iP3 ≤ L / 2) :
    0 < dmp (tables (Trig.mk Real.sin Real.cos Real.pi) T L) (mu * mu) p iP1 iP2 iP3 ∧
    0 < dmq (tables (Trig.mk Real.sin Real.cos Real.pi) T L) (mu * mu) q iP1 iP2 iP3 ∧
    0 < den (tables (Trig.mk Real.sin Real.cos Real.pi) T L) (mu * mu) p q iP1 iP2 iP3 ∧
    den (tables (Trig.mk Real.sin Real.cos Real.pi) T L) (mu * mu) p q iP1 iP2 iP3 ≠ 0 := by
  have hL2 : L / 2 < L := Nat.div_lt_self hL (by decide)
  have hmu : 0 ≤ mu * mu := mul_self_nonneg mu
  have hd := den_pos T L hT (mu * mu) hmu p q iP1 iP2 iP3 hp hq (by omega) (by omega) (by omega)
  refine ⟨dmp_pos T L hT _ hmu p iP1 iP2 iP3 hp (by omega) (by omega) (by omega), ?_, hd, hd.ne'⟩
  rw [dmq_eq_dmp]
  exact dmp_pos T L hT _ hmu q iP1 iP2 iP3 hq (by omega) (by omega) (by omega)

/-- Witness of `den_factors_pos` at `T = 4`, `L = 4`, `mu = 0`, `iP0 = iQ0 = 0` and the zero
spatial momentum. -/
theorem den_factors_pos_witness :
    0 < dmp (tables (Trig.mk Real.sin Real.cos Real.pi) 4 4) (0 * 0) 0 0 0 0 ∧
    0 < dmq (tables (Trig.mk Real.sin Real.cos Real.pi) 4 4) (0 * 0) 0 0 0 0 ∧
    0 < den (tables (Trig.mk Real.sin Real.cos Real.pi) 4 4) (0 * 0) 0 0 0 0 0 ∧
    den (tables (Trig.mk Real.sin Real.cos Real.pi) 4 4) (0 * 0) 0 0 0 0 0 ≠ 0 :=
  den_factors_pos 4 4 (by decide) (by decide) 0 0 0 0 0 0 (by decide) (by decide) (by decide)
    (by decide) (by decide)

end Vkvk

namespace Vkvk

/-! ## Symmetries of the summand (claim C18) -/

section Symmetries

variable {α : Type} [Field α]

/-- A rearrangement of a triple is one of its six orderings. -/
theorem perm_three_cases {a b c x y z : Nat} (h : [x, y, z].Perm [a, b, c]) :
    (x = a ∧ y = b ∧ z = c) ∨ (x = b ∧ y = a ∧ z = c) ∨ (x = c ∧ y = b ∧ z = a) ∨
    (x = b ∧ y = c ∧ z = a) ∨ (x = c ∧ y = a ∧ z = b) ∨ (x = a ∧ y = c ∧ z = b) := by
  rw [← List.mem_permutations, permutations_three] at h
  simpa using h

theorem num_perm (tb : Tables α) (mu2 : α) (r12 : Int) (p q : Nat) {a b c x y z : Nat}
    (h : [x, y, z].Perm [a, b, c]) :
    num tb mu2 r12 p q x y z = num tb mu2 r12 p q a b c := by
  rcases perm_three_cases h with h1 | h1 | h1 | h1 | h1 | h1 <;>
    (obtain ⟨hx, hy, hz⟩ := h1
     subst hx hy hz
     unfold num Mp Mq
     ring)

theorem num_cons_perm (tb : Tables α) (mu2 : α) (p q : Nat) {a b c x y z : Nat}
    (h : [x, y, z].Perm [a, b, c]) :
    num_cons tb mu2 p q x y z = num_cons tb mu2 p q a b c := by
  rcases perm_three_cases h with h1 | h1 | h1 | h1 | h1 | h1 <;>
    (obtain ⟨hx, hy, hz⟩ := h1
     subst hx hy hz
     unfold num_cons Mp Mq
     ring)

theorem den_perm (tb : Tables α) (mu2 : α) (p q : Nat) {a b c x y z : Nat}
    (h : [x, y, z].Perm [a, b, c]) :
    den tb mu2 p q x y z = den tb mu2 p q a b c := by
  rcases perm_three_cases h with h1 | h1 | h1 | h1 | h1 | h1 <;>
    (obtain ⟨hx, hy, hz⟩ := h1
     subst hx hy hz
     unfold den dmp dmq Mp Mq sqr
     ring)

theorem num_swap (tb : Tables α) (mu2 : α) (r12 : Int) (p q a b c : Nat) :
    num tb mu2 r12 q p a b c = num tb mu2 r12 p q a b c := by
  unfold num Mp Mq
  ring

theorem num_cons_swap (tb : Tables α) (mu2 : α) (p q a b c : Nat) :
    num_cons tb mu2 q p a b c = num_cons tb mu2 p q a b c := by
  unfold num_cons Mp Mq
  ring

theorem den_swap (tb : Tables α) (mu2 : α) (p q a b c : Nat) :
    den tb mu2 q p a b c = den tb mu2 p q a b c := by
  unfold den dmp dmq Mp Mq
  ring

theorem summand_perm (tb : Tables α) (mu2 : α) (r12 : Int) (p q : Nat) {a b c x y z : Nat}
    (h : [x, y, z].Perm [a, b, c]) :
    summand tb mu2 r12 p q x y z = summand tb mu2 r12 p q a b c := by
  unfold summand
  rw [num_perm tb mu2 r12 p q h, num_cons_perm tb mu2 p q h, den_perm tb mu2 p q h]

end Symmetries

/-- Claim C18. For every `T`, `L`, `mu`, `r12` and all indices, the kernel's summand (the local
numerator `num`, the conserved numerator `num_cons` and the denominator `den`) is unchanged by
any permutation of the spatial indices `(iP1, iP2, iP3)` and by exchanging `iP0` with `iQ0`. -/
theorem summand_symmetries (T L : Nat) (mu : ℝ) (r12 : ℤ) (p q iP1 iP2 iP3 x y z : Nat)
    (h : [x, y, z].Perm [iP1, iP2, iP3]) :
    (num (tables (Trig.mk Real.sin Real.cos Real.pi) T L) (mu * mu) r12 p q x y z =
        num (tables (Trig.mk Real.sin Real.cos Real.pi) T L) (mu * mu) r12 p q iP1 iP2 iP3 ∧
      num_cons (tables (Trig.mk Real.sin Real.cos Real.pi) T L) (mu * mu) p q x y z =
        num_cons (tables (Trig.mk Real.sin Real.cos Real.pi) T L) (mu * mu) p q iP1 iP2 iP3 ∧
      den (tables (Trig.mk Real.sin Real.cos Real.pi) T L) (mu * mu) p q x y z =
        den (tables (Trig.mk Real.sin Real.cos Real.pi) T L) (mu * mu) p q iP1 iP2 iP3) ∧
    (num (tables (Trig.mk Real.sin Real.cos Real.pi) T L) (mu * mu) r12 q p iP1 iP2 iP3 =
        num (tables (Trig.mk Real.sin Real.cos Real.pi) T L) (mu * mu) r12 p q iP1 iP2 iP3 ∧
      num_cons (tables (Trig.mk Real.sin Real.cos Real.pi) T L) (mu * mu) q p iP1 iP2 iP3 =
        num_cons (tables (Trig.mk Real.sin Real.cos Real.pi) T L) (mu * mu) p q iP1 iP2 iP3 ∧
      den (tables (Trig.mk Real.sin Real.cos Real.pi) T L) (mu * mu) q p iP1 iP2 iP3 =
        den (tables (Trig.mk Real.sin Real.cos Real.pi) T L) (mu * mu) p q iP1 iP2 iP3) :=
  ⟨⟨num_perm _ _ _ _ _ h, num_cons_perm _ _ _ _ h, den_perm _ _ _ _ h⟩,
    ⟨num_swap _ _ _ _ _ _ _ _, num_cons_swap _ _ _ _ _ _ _, den_swap _ _ _ _ _ _ _⟩⟩

/-- Witness of `summand_symmetries` at `T = 4`, `L = 4`, `mu = 1/10`, `r12 = 1`, temporal indices
`(1, 2)` and the rearrangement `(0, 2, 1)` of the spatial triple `(2, 1, 0)`. -/
theorem summand_symmetries_witness :
    (num (tables (Trig.mk Real.sin Real.cos Real.pi) 4 4) (1 / 10 * (1 / 10)) 1 1 2 0 2 1 =
        num (tables (Trig.mk Real.sin Real.cos Real.pi) 4 4) (1 / 10 * (1 / 10)) 1 1 2 2 1 0 ∧
      num_cons (tables (Trig.mk Real.sin Real.cos Real.pi) 4 4) (1 / 10 * (1 / 10)) 1 2 0 2 1 =
        num_cons (tables (Trig.mk Real.sin Real.cos Real.pi) 4 4) (1 / 10 * (1 / 10)) 1 2 2 1 0 ∧
      den (tables (Trig.mk Real.sin Real.cos Real.pi) 4 4) (1 / 10 * (1 / 10)) 1 2 0 2 1 =
        den (tables (Trig.mk Real.sin Real.cos Real.pi) 4 4) (1 / 10 * (1 / 10)) 1 2 2 1 0) ∧
    (num (tables (Trig.mk Real.sin Real.cos Real.pi) 4 4) (1 / 10 * (1 / 10)) 1 2 1 2 1 0 =
        num (tables (Trig.mk Real.sin Real.cos Real.pi) 4 4) (1 / 10 * (1 / 10)) 1 1 2 2 1 0 ∧
      num_cons (tables (Trig.mk Real.sin Real.cos Real.pi) 4 4) (1 / 10 * (1 / 10)) 2 1 2 1 0 =
        num_cons (tables (Trig.mk Real.sin Real.cos Real.pi) 4 4) (1 / 10 * (1 / 10)) 1 2 2 1 0 ∧
      den (tables (Trig.mk Real.sin Real.cos Real.pi) 4 4) (1 / 10 * (1 / 10)) 2 1 2 1 0 =
        den (tables (Trig.mk Real.sin Real.cos Real.pi) 4 4) (1 / 10 * (1 / 10)) 1 2 2 1 0) :=
  summand_symmetries 4 4 (1 / 10) 1 1 2 2 1 0 0 2 1 (by decide)

end Vkvk

namespace Vkvk

/-! ## Order independence of the reduction (claim C15) -/

section ReductionForms

variable {α : Type} [Field α]

theorem length_vec_double_plus (a b : List α) (h : a.length = b.length) :
    (vec_double_plus a b).length = a.length := by
  unfold vec_double_plus
  rw [List.length_zipWith, h, Nat.min_self]

theorem rd_vec_double_plus (a b : List α) (h : a.length = b.length) (k : Nat)
    (hk : k < a.length) : rd (vec_double_plus a b) k = rd a k + rd b k := by
  have hk' : k < b.length := h ▸ hk
  unfold vec_double_plus
  simp [rd_eq, List.getElem?_zipWith, List.getElem?_eq_getElem hk, List.getElem?_eq_getElem hk']

/-- The private vector of a worker holds, in bin `k`, the sum of the contributions of the
worker's items whose bin index is `k`. -/
theorem rd_foldl_pairStep (tb : Tables α) (T L : Nat) (mu2 : α) (r12 : Int) (l : List Nat)
    (k : Nat) (hk : k < T) :
    rd (l.foldl (pairStep tb T L mu2 r12) (List.replicate T 0)) k =
      (l.map (fun i => if pmq0 T (iP0 i) (iQ0 i) = k then pairTerm tb L mu2 r12 i else 0)).sum := by
  unfold pairStep
  rw [rd_eq, getElem?_foldl_accum (fun i => pmq0 T (iP0 i) (iQ0 i))
    (fun i => pairTerm tb L mu2 r12 i)]
  simp [List.getElem?_replicate, hk]

theorem length_foldl_pairStep (tb : Tables α) (T L : Nat) (mu2 : α) (r12 : Int) (l : List Nat) :
    (l.foldl (pairStep tb T L mu2 r12) (List.replicate T 0)).length = T := by
  unfold pairStep
  rw [length_foldl_modifyAt (fun i => pmq0 T (iP0 i) (iQ0 i))
    (fun i x => x + pairTerm tb L mu2 r12 i)]
  simp

/-- Combining the private vectors of the workers into a vector `out`. -/
theorem foldl_chunks (tb : Tables α) (T L : Nat) (mu2 : α) (r12 : Int)
    (chunks : List (List Nat)) (out : List α) (hout : out.length = T) :
    (chunks.foldl (fun omp_out chunk =>
      vec_double_plus omp_out
        (chunk.foldl (pairStep tb T L mu2 r12) (omp_priv (List.replicate T 0)))) out).length
        = T ∧
    ∀ k, k < T →
      rd (chunks.foldl (fun omp_out chunk =>
        vec_double_plus omp_out
          (chunk.foldl (pairStep tb T L mu2 r12) (omp_priv (List.replicate T 0)))) out) k =
      rd out k + (chunks.flatten.map (fun i =>
        if pmq0 T (iP0 i) (iQ0 i) = k then pairTerm tb L mu2 r12 i else 0)).sum := by
  have hpriv : omp_priv (List.replicate T (0 : α)) = List.replicate T 0 := by
    unfold omp_priv
    rw [List.length_replicate]
  induction chunks generalizing out with
  | nil =>
    refine ⟨hout, ?_⟩
    intro k _
    simp
  | cons chunk rest ih =>
    rw [List.foldl_cons, hpriv]
    have hlen : out.length =
        (chunk.foldl (pairStep tb T L mu2 r12) (List.replicate T 0)).length := by
      rw [hout, length_foldl_pairStep]
    have h1 := length_vec_double_plus out _ hlen
    obtain ⟨ih1, ih2⟩ := ih (vec_double_plus out
      (chunk.foldl (pairStep tb T L mu2 r12) (List.replicate T 0))) (h1.trans hout)
    rw [hpriv] at ih1 ih2
    refine ⟨ih1, ?_⟩
    intro k hk
    rw [ih2 k hk, rd_vec_double_plus out _ hlen k (hout ▸ hk), rd_foldl_pairStep _ _ _ _ _ _ _ hk,
      List.flatten_cons, List.map_append, List.sum_append, add_assoc]

/-- The reduction over any grouping of any rearrangement of a list of work items gives the
vector of the loop run over that list in order. -/
theorem momentumCorrPar_eq_foldl (tb : Tables α) (T L : Nat) (mu2 : α) (r12 : Int)
    (chunks : List (List Nat)) (items : List Nat) (h : chunks.flatten.Perm items) :
    momentumCorrPar tb T L mu2 r12 chunks =
      items.foldl (pairStep tb T L mu2 r12) (List.replicate T 0) := by
  obtain ⟨h1, h2⟩ := foldl_chunks tb T L mu2 r12 chunks (List.replicate T 0)
    (List.length_replicate _ _)
  apply list_ext_rd
  · unfold momentumCorrPar
    rw [h1, length_foldl_pairStep]
  · intro k hk
    have hk' : k < T := by
      unfold momentumCorrPar at hk
      rwa [h1] at hk
    unfold momentumCorrPar
    rw [h2 k hk', rd_foldl_pairStep _ _ _ _ _ _ _ hk', ((h.map _).sum_eq)]
    simp [rd_eq, List.getElem?_replicate, hk']

/-- The reduction over any grouping of any rearrangement of the work items of the loop gives
the vector of the sequential loop. -/
theorem momentumCorrPar_eq (tb : Tables α) (T L : Nat) (mu2 : α) (r12 : Int)
    (chunks : List (List Nat)) (h : chunks.flatten.Perm (List.range (loopCount T))) :
    momentumCorrPar tb T L mu2 r12 chunks = momentumCorr tb T L mu2 r12 :=
  momentumCorrPar_eq_foldl tb T L mu2 r12 chunks _ h

end ReductionForms

/-- Claim C15. The momentum-space accumulator does not depend on the order or grouping in which
work items are combined (arithmetic over the reals).  For every split of every rearrangement
of a list of work items into per-worker lists, each run on a private accumulator started at
the zero vector of length `T` and merged by elementwise addition, the resulting vector is the
one of the loop body run over the list in order.  In particular, for the work items of the
loop of line 68, the indices below its `int` bound, the result is the vector `c` of the
sequential loop; these are the indices `[0, T(T+1)/2)` as long as `T*(T+1) < 2^31`. -/
theorem reduction_order_independent (T L : Nat) (mu : ℝ) (r12 : ℤ) (chunks : List (List Nat)) :
    (∀ items : List Nat, chunks.flatten.Perm items →
      momentumCorrPar (tables (Trig.mk Real.sin Real.cos Real.pi) T L) T L (mu * mu) r12 chunks =
        items.foldl (pairStep (tables (Trig.mk Real.sin Real.cos Real.pi) T L) T L (mu * mu) r12)
          (List.replicate T 0)) ∧
    (chunks.flatten.Perm (List.range (loopCount T)) →
      momentumCorrPar (tables (Trig.mk Real.sin Real.cos Real.pi) T L) T L (mu * mu) r12 chunks =
        momentumCorr (tables (Trig.mk Real.sin Real.cos Real.pi) T L) T L (mu * mu) r12) ∧
    (T * (T + 1) < 2 ^ 31 → chunks.flatten.Perm (List.range (T * (T + 1) / 2)) →
      momentumCorrPar (tables (Trig.mk Real.sin Real.cos Real.pi) T L) T L (mu * mu) r12 chunks =
        momentumCorr (tables (Trig.mk Real.sin Real.cos Real.pi) T L) T L (mu * mu) r12) :=
  ⟨fun items h => momentumCorrPar_eq_foldl _ T L _ r12 chunks items h,
    fun h => momentumCorrPar_eq _ T L _ r12 chunks h,
    fun hb h => momentumCorrPar_eq _ T L _ r12 chunks (by rw [loopCount_eq T hb]; exact h)⟩

/-- Witness of `reduction_order_independent` at `T = 2`, `L = 2`: two workers, the first with
work item 2, the second with items 0 and 1 in reverse order. -/
theorem reduction_order_independent_witness :
    momentumCorrPar (tables (Trig.mk Real.sin Real.cos Real.pi) 2 2) 2 2 (1 / 10 * (1 / 10)) 1
        [[2], [1, 0]] =
      momentumCorr (tables (Trig.mk Real.sin Real.cos Real.pi) 2 2) 2 2 (1 / 10 * (1 / 10)) 1 :=
  (reduction_order_independent 2 2 (1 / 10) 1 [[2], [1, 0]]).2.2 (by decide) (by decide)

end Vkvk

namespace Vkvk

/-! ## The triangular, doubled accumulation against the full pair sum (claim C11) -/

section FullPair

variable {α : Type} [Field α]

/-- A symmetric function summed over the pairs `p ≤ q`, doubled off the diagonal, gives its sum
over all ordered pairs. -/
theorem sum_triangle_doubled (G : Nat → Nat → α) (hG : ∀ p q, G p q = G q p) (T : Nat) :
    (∑ q in Finset.range T, ∑ p in Finset.range T,
        if p ≤ q then G p q * (((1 + if p ≠ q then 1 else 0 : Nat)) : α) else 0) =
      ∑ p in Finset.range T, ∑ q in Finset.range T, G p q := by
  have e1 : ∀ p q : Nat,
      (if p ≤ q then G p q * (((1 + if p ≠ q then 1 else 0 : Nat)) : α) else 0) =
        (if p ≤ q then G p q else 0) + (if p < q then G p q else 0) := by
    intro p q
    rcases Nat.lt_trichotomy p q with h | h | h
    · have h1 : p ≤ q := h.le
      have h3 : p ≠ q := by omega
      simp only [h1, h, h3, if_true, ne_eq, not_false_eq_true]
      push_cast
      ring
    · subst h
      simp
    · have h1 : ¬ p ≤ q := by omega
      have h2 : ¬ p < q := by omega
      simp only [h1, h2, if_false, add_zero]
  have e2 : (∑ q in Finset.range T, ∑ p in Finset.range T, if p < q then G p q else 0) =
      ∑ q in Finset.range T, ∑ p in Finset.range T, if q < p then G p q else 0 := by
    rw [Finset.sum_comm]
    apply Finset.sum_congr rfl
    intro p _
    apply Finset.sum_congr rfl
    intro q _
    rw [hG p q]
  simp only [e1, Finset.sum_add_distrib]
  rw [e2, ← Finset.sum_add_distrib, Finset.sum_comm]
  apply Finset.sum_congr rfl
  intro q _
  rw [← Finset.sum_add_distrib]
  apply Finset.sum_congr rfl
  intro p _
  by_cases h : p ≤ q
  · have h2 : ¬ q < p := by omega
    simp only [h, h2, if_true, if_false, add_zero]
  · have h2 : q < p := by omega
    simp only [h, h2, if_true, if_false, zero_add]

/-- The cosine transform of the accumulator as a sum over the pairs `p ≤ q`. -/
theorem sum_cosF_momentumCorr (cosF : Nat → Nat → α) (tb : Tables α) (T L : Nat)
    (hb : T * (T + 1) < 2 ^ 31) (mu2 : α) (r12 : Int) (t : Nat) :
    (∑ k in Finset.range T, cosF k t * rd (momentumCorr tb T L mu2 r12) k) =
      ∑ q in Finset.range T, ∑ p in Finset.range T,
        if p ≤ q then
          cosF (pmq0 T p q) t * temp tb L mu2 r12 p q *
            (((1 + if p ≠ q then 1 else 0 : Nat)) : α)
        else 0 := by
  have e : ∀ k ∈ Finset.range T, cosF k t * rd (momentumCorr tb T L mu2 r12) k =
      ∑ q in Finset.range T, ∑ p in Finset.range T,
        if pmq0 T p q = k then
          (if p ≤ q then
            cosF (pmq0 T p q) t * temp tb L mu2 r12 p q *
              (((1 + if p ≠ q then 1 else 0 : Nat)) : α)
          else 0)
        else 0 := by
    intro k hk
    rw [rd_momentumCorr_square _ _ _ hb _ _ _ (Finset.mem_range.mp hk), Finset.mul_sum]
    apply Finset.sum_congr rfl
    intro q _
    rw [Finset.mul_sum]
    apply Finset.sum_congr rfl
    intro p _
    by_cases h1 : p ≤ q <;> by_cases h2 : pmq0 T p q = k
    · simp only [h1, h2, if_true]
      ring
    · simp only [h1, h2, if_true, if_false, mul_zero]
    · simp only [h1, h2, if_true, if_false, mul_zero]
    · simp only [h1, h2, if_false, mul_zero]
  rw [Finset.sum_congr rfl e, Finset.sum_comm]
  apply Finset.sum_congr rfl
  intro q hq
  rw [Finset.sum_comm]
  apply Finset.sum_congr rfl
  intro p hp
  rw [Finset.sum_ite_eq]
  have hlt : pmq0 T p q < T := Nat.mod_lt _ (by
    have := Finset.mem_range.mp hq
    omega)
  rw [if_pos (Finset.mem_range.mpr hlt)]

end FullPair

/-- The Fourier factor at the bin of a pair is the cosine of the momentum difference. -/
theorem cosF_pmq0 (T p q t : Nat) (hp : p < T) (hq : q < T) :
    cosF (Trig.mk Real.sin Real.cos Real.pi) T (pmq0 T p q) t =
      Real.cos (2 * Real.pi * ((p : ℝ) - (q : ℝ)) * (t : ℝ) / (T : ℝ)) := by
  have hT : (T : ℝ) ≠ 0 := by
    have : 0 < T := by omega
    exact_mod_cast this.ne'
  unfold cosF
  show Real.cos _ = Real.cos _
  rcases Nat.lt_or_ge p q with h | h
  · rw [pmq0_of_le h.le hq, if_neg (by omega), Nat.cast_sub (by omega)]
    have e : 2 * Real.pi * (((T + p : ℕ) : ℝ) - (q : ℝ)) / (T : ℝ) * (t : ℝ) =
        2 * Real.pi * ((p : ℝ) - (q : ℝ)) * (t : ℝ) / (T : ℝ) + (t : ℝ) * (2 * Real.pi) := by
      push_cast
      field_simp
      ring
    rw [e, Real.cos_add_nat_mul_two_pi]
  · rcases Nat.eq_or_lt_of_le h with h' | h'
    · subst h'
      rw [pmq0_of_le le_rfl hp, if_pos rfl]
      simp
    · rw [pmq0_of_lt h' hp, Nat.cast_sub h'.le]
      congr 1
      ring

theorem normalization_eq (T L : Nat) :
    (normalization T L : ℝ) = 12 / ((T : ℝ) ^ 2 * (L : ℝ) ^ 3) := by
  unfold normalization Nc
  rw [div_div, div_div, div_div, div_div]
  congr 1
  · norm_num
  · ring

/-- While the loop bound does not overflow (`T*(T+1) < 2^31`), for positive `T` and `L`, real
`mu` and integer `r12`, the triangular, doubled accumulation followed by the cosine transform
equals the full sum over ordered pairs:
`d[t] = (12 / (T^2 L^3)) * Σ cos(2 pi (P0 - Q0) t / T) * S(P0, Q0)` over all `(P0, Q0)` in
`[0,T) × [0,T)`, for every `0 ≤ t < T`, where `S(P0, Q0)` is the kernel's per-pair spatial sum
`temp`. -/
theorem VKVK_eq_fullPairSum (T L : Nat) (hT : 0 < T) (hb : T * (T + 1) < 2 ^ 31) (hL : 0 < L)
    (mu : ℝ) (r12 : ℤ) (t : Nat) (ht : t < T) :
    (VKVK (Trig.mk Real.sin Real.cos Real.pi) T L mu r12)[t]? =
      some (fullPairSum (Trig.mk Real.sin Real.cos Real.pi) T L mu r12 t) := by
  rw [getElem?_eq_some_rd _ _ (by rw [length_VKVK]; exact ht), rd_VKVK _ _ _ _ _ _ ht,
    sum_cosF_momentumCorr _ _ _ _ hb, normalization_eq]
  unfold fullPairSum
  rw [mul_comm]
  congr 2
  rw [← sum_triangle_doubled (fun p q =>
    Real.cos (2 * Real.pi * ((p : ℝ) - (q : ℝ)) * (t : ℝ) / (T : ℝ)) *
      temp (tables (Trig.mk Real.sin Real.cos Real.pi) T L) L (mu * mu) r12 p q) ?_ T]
  · apply Finset.sum_congr rfl
    intro q hq
    apply Finset.sum_congr rfl
    intro p hp
    rw [cosF_pmq0 T p q t (Finset.mem_range.mp hp) (Finset.mem_range.mp hq)]
  · intro p q
    show Real.cos _ * temp _ L _ r12 p q = Real.cos _ * temp _ L _ r12 q p
    rw [temp_swap _ L _ r12 p q]
    congr 1
    rw [← Real.cos_neg]
    congr 1
    ring

/-- The equality of `VKVK_eq_fullPairSum` at `T = 4`, `L = 4`, `mu = 1/10`, `r12 = 1`,
`t = 1`. -/
theorem VKVK_eq_fullPairSum_four :
    (VKVK (Trig.mk Real.sin Real.cos Real.pi) 4 4 (1 / 10) 1)[1]? =
      some (fullPairSum (Trig.mk Real.sin Real.cos Real.pi) 4 4 (1 / 10) 1 1) :=
  VKVK_eq_fullPairSum 4 4 (by decide) (by decide) (by decide) (1 / 10) 1 1 (by decide)

/-- When the loop body is never run the kernel returns zeros. -/
theorem rd_VKVK_of_loopCount_zero (T L : Nat) (h : loopCount T = 0) (mu : ℝ) (r12 : ℤ)
    (t : Nat) (ht : t < T) :
    rd (VKVK (Trig.mk Real.sin Real.cos Real.pi) T L mu r12) t = 0 := by
  rw [rd_VKVK _ _ _ _ _ _ ht, momentumCorr_of_loopCount_zero _ _ _ _ _ h]
  have e : ∀ k, rd (List.replicate T (0 : ℝ)) k = 0 := by
    intro k
    rw [rd_eq, List.getElem?_replicate]
    split <;> rfl
  simp only [e, mul_zero, Finset.sum_const_zero, zero_mul]

/-- The Wilson mass `M(p)` is strictly positive at the antiperiodic temporal momenta. -/
theorem Mp_pos (T L : Nat) (hT : 0 < T) (k iP1 iP2 iP3 : Nat) (hk : k < T) (h1 : iP1 < L)
    (h2 : iP2 < L) (h3 : iP3 < L) :
    0 < Mp (tables (Trig.mk Real.sin Real.cos Real.pi) T L) k iP1 iP2 iP3 := by
  have hc0 := cos_p0_ne_one T k hT
  have hc0' := Real.cos_le_one (p0 (Trig.mk Real.sin Real.cos Real.pi) T k)
  have hc1 := Real.cos_le_one (pI (Trig.mk Real.sin Real.cos Real.pi) L iP1)
  have hc2 := Real.cos_le_one (pI (Trig.mk Real.sin Real.cos Real.pi) L iP2)
  have hc3 := Real.cos_le_one (pI (Trig.mk Real.sin Real.cos Real.pi) L iP3)
  unfold Mp tables mkTables
  simp only [rd_map_range _ _ _ hk, rd_map_range _ _ _ h1, rd_map_range _ _ _ h2,
    rd_map_range _ _ _ h3]
  have : Real.cos (p0 (Trig.mk Real.sin Real.cos Real.pi) T k) < 1 := lt_of_le_of_ne hc0' hc0
  linarith

/-- With `r12 = -1` and `mu2 > 1` the numerator `num` is strictly positive. -/
theorem num_pos (T L : Nat) (hT : 0 < T) (mu2 : ℝ) (hmu : 1 < mu2) (p q iP1 iP2 iP3 : Nat)
    (hp : p < T) (hq : q < T) (h1 : iP1 < L) (h2 : iP2 < L) (h3 : iP3 < L) :
    0 < num (tables (Trig.mk Real.sin Real.cos Real.pi) T L) mu2 (-1) p q iP1 iP2 iP3 := by
  have hMp := Mp_pos T L hT p iP1 iP2 iP3 hp h1 h2 h3
  have hMq : 0 < Mq (tables (Trig.mk Real.sin Real.cos Real.pi) T L) q iP1 iP2 iP3 :=
    Mp_pos T L hT q iP1 iP2 iP3 hq h1 h2 h3
  have hM := mul_pos hMp hMq
  unfold num
  have es : ∀ k, k < T → rd (tables (Trig.mk Real.sin Real.cos Real.pi) T L).pt0 k =
      Real.sin (p0 (Trig.mk Real.sin Real.cos Real.pi) T k) := by
    intro k hk
    unfold tables mkTables
    simp only [rd_map_range _ _ _ hk]
  rw [es p hp, es q hq]
  have a1 := Real.sin_le_one (p0 (Trig.mk Real.sin Real.cos Real.pi) T p)
  have a2 := Real.neg_one_le_sin (p0 (Trig.mk Real.sin Real.cos Real.pi) T p)
  have b1 := Real.sin_le_one (p0 (Trig.mk Real.sin Real.cos Real.pi) T q)
  have b2 := Real.neg_one_le_sin (p0 (Trig.mk Real.sin Real.cos Real.pi) T q)
  have hss : -1 ≤ Real.sin (p0 (Trig.mk Real.sin Real.cos Real.pi) T p) *
      Real.sin (p0 (Trig.mk Real.sin Real.cos Real.pi) T q) := by
    nlinarith [mul_nonneg (sub_nonneg.2 a1) (sub_nonneg.2 b1),
      mul_nonneg (sub_nonneg.2 a2) (sub_nonneg.2 b2)]
  have q1 := mul_self_nonneg (rd (tables (Trig.mk Real.sin Real.cos Real.pi) T L).ptI iP1)
  have q2 := mul_self_nonneg (rd (tables (Trig.mk Real.sin Real.cos Real.pi) T L).ptI iP2)
  have q3 := mul_self_nonneg (rd (tables (Trig.mk Real.sin Real.cos Real.pi) T L).ptI iP3)
  push_cast
  linarith

theorem permMult_pos (a b c : Nat) : 0 < permMult a b c := by
  rw [permMult_eq]
  split
  · decide
  · split <;> decide

theorem parMult_pos (L a b c : Nat) : 0 < parMult L a b c := by
  unfold parMult
  positivity

/-- With `r12 = -1` and `mu2 > 1` the per-pair spatial sum `temp` is strictly positive. -/
theorem temp_pos (T L : Nat) (hT : 0 < T) (hL : 0 < L) (mu2 : ℝ) (hmu : 1 < mu2) (p q : Nat)
    (hp : p < T) (hq : q < T) :
    0 < temp (tables (Trig.mk Real.sin Real.cos Real.pi) T L) L mu2 (-1) p q := by
  rw [temp_eq_sum]
  apply Finset.sum_pos
  · intro iP1 h1
    apply Finset.sum_pos
    · intro iP2 h2
      apply Finset.sum_pos
      · intro iP3 h3
        rw [Finset.mem_range] at h1 h2 h3
        have b1 : iP1 < L := by omega
        have b2 : iP2 < L := by omega
        have b3 : iP3 < L := by omega
        unfold term
        rw [if_neg (by decide)]
        have hn := num_pos T L hT mu2 hmu p q iP1 iP2 iP3 hp hq b1 b2 b3
        have hd := den_pos T L hT mu2 (by linarith) p q iP1 iP2 iP3 hp hq b1 b2 b3
        have hpar : (0 : ℝ) < (parMult L iP1 iP2 iP3 : ℝ) := by
          exact_mod_cast parMult_pos L iP1 iP2 iP3
        have hperm : (0 : ℝ) < (permMult iP1 iP2 iP3 : ℝ) := by
          exact_mod_cast permMult_pos iP1 iP2 iP3
        exact div_pos (mul_pos (mul_pos hn hpar) hperm) hd
      · exact ⟨0, Finset.mem_range.2 (Nat.succ_pos _)⟩
    · exact ⟨0, Finset.mem_range.2 (Nat.succ_pos _)⟩
  · exact ⟨0, Finset.mem_range.2 (Nat.succ_pos _)⟩

/-- With `r12 = -1` and `mu*mu > 1` the full sum over ordered pairs is strictly positive at
`t = 0`. -/
theorem fullPairSum_pos (T L : Nat) (hT : 0 < T) (hL : 0 < L) (mu : ℝ) (hmu : 1 < mu * mu) :
    0 < fullPairSum (Trig.mk Real.sin Real.cos Real.pi) T L mu (-1) 0 := by
  unfold fullPairSum
  have hT' : (0 : ℝ) < (T : ℝ) := by exact_mod_cast hT
  have hL' : (0 : ℝ) < (L : ℝ) := by exact_mod_cast hL
  apply mul_pos
  · positivity
  · apply Finset.sum_pos
    · intro p hp
      apply Finset.sum_pos
      · intro q hq
        have e : Real.cos (2 * Real.pi * ((p : ℝ) - (q : ℝ)) * ((0 : ℕ) : ℝ) / (T : ℝ)) = 1 := by
          rw [Nat.cast_zero, mul_zero, zero_div, Real.cos_zero]
        show 0 < Real.cos _ * _
        rw [e, one_mul]
        exact temp_pos T L hT hL _ hmu p q (Finset.mem_range.1 hp) (Finset.mem_range.1 hq)
      · exact ⟨0, Finset.mem_range.2 hT⟩
    · exact ⟨0, Finset.mem_range.2 hT⟩

/-- Claim C11 at `T = 46344`, `L = 23172`, `mu = 2`, `r12 = -1`, the kernel call made by
`vkvk 23172 2 1` for `r2 = -1`.  The `int` product `T*(T+1)` wraps to a negative number, the
loop over the pairs is not entered and the kernel returns zeros, while the full sum over the
ordered pairs is strictly positive at `t = 0`: the two sides of the claim differ. -/
theorem VKVK_overflow_not_fullPairSum :
    loopCount 46344 = 0 ∧
    (∀ t, t < 46344 →
      (VKVK (Trig.mk Real.sin Real.cos Real.pi) 46344 23172 2 (-1))[t]? = some 0) ∧
    0 < fullPairSum (Trig.mk Real.sin Real.cos Real.pi) 46344 23172 2 (-1) 0 ∧
    (VKVK (Trig.mk Real.sin Real.cos Real.pi) 46344 23172 2 (-1))[0]? ≠
      some (fullPairSum (Trig.mk Real.sin Real.cos Real.pi) 46344 23172 2 (-1) 0) := by
  have h0 : loopCount 46344 = 0 := loopCount_overflow.2.1
  have hz : ∀ t, t < 46344 →
      (VKVK (Trig.mk Real.sin Real.cos Real.pi) 46344 23172 2 (-1))[t]? = some 0 := by
    intro t ht
    rw [getElem?_eq_some_rd _ _ (by rw [length_VKVK]; exact ht),
      rd_VKVK_of_loopCount_zero 46344 23172 h0 2 (-1) t ht]
  have hpos : 0 < fullPairSum (Trig.mk Real.sin Real.cos Real.pi) 46344 23172 2 (-1) 0 :=
    fullPairSum_pos 46344 23172 (by norm_num) (by norm_num) 2 (by norm_num)
  refine ⟨h0, hz, hpos, ?_⟩
  rw [hz 0 (by norm_num)]
  intro h
  rw [Option.some.injEq] at h
  rw [← h] at hpos
  exact lt_irrefl _ hpos

end Vkvk

namespace Vkvk

/-! ## The symmetry-reduced spatial sum against the full spatial sum (claim C12) -/

section Folding

variable {α : Type} [Field α]

/-- Folding a sum over `[0, 2h)` of a function invariant under `k ↦ 2h - k` onto `[0, h]`: the
end points `0` and `h` count once, the points in between twice. -/
theorem sum_fold_reflection (F : Nat → α) (L h : Nat) (hL : L = 2 * h) (hh : 1 ≤ h)
    (hF : ∀ k, 0 < k → k < h → F (L - k) = F k) :
    (∑ k in Finset.range L, F k) =
      ∑ j in Finset.range (h + 1),
        ((((if j ≠ 0 ∧ j ≠ h then 1 else 0) + 1 : Nat)) : α) * F j := by
  obtain ⟨m, rfl⟩ : ∃ m, h = m + 1 := ⟨h - 1, by omega⟩
  have e1 : L = (m + 1 + 1) + m := by omega
  have e2 : (∑ k in Finset.range m, F (m + 1 + 1 + k)) = ∑ k in Finset.range m, F (k + 1) := by
    rw [← Finset.sum_range_reflect (fun k => F (m + 1 + 1 + k)) m]
    apply Finset.sum_congr rfl
    intro k hk
    rw [Finset.mem_range] at hk
    have e3 : m + 1 + 1 + (m - 1 - k) = L - (k + 1) := by omega
    show F (m + 1 + 1 + (m - 1 - k)) = F (k + 1)
    rw [e3]
    exact hF (k + 1) (by omega) (by omega)
  have e4 : (∑ j in Finset.range (m + 1 + 1),
        ((((if j ≠ 0 ∧ j ≠ m + 1 then 1 else 0) + 1 : Nat)) : α) * F j) =
      (∑ j in Finset.range (m + 1 + 1), F j) + ∑ k in Finset.range m, F (k + 1) := by
    have e5 : ∀ j, ((((if j ≠ 0 ∧ j ≠ m + 1 then 1 else 0) + 1 : Nat)) : α) * F j =
        F j + (if j ≠ 0 ∧ j ≠ m + 1 then F j else 0) := by
      intro j
      split
      · push_cast
        ring
      · push_cast
        ring
    simp only [e5, Finset.sum_add_distrib]
    congr 1
    rw [Finset.sum_range_succ, Finset.sum_range_succ']
    simp only [ne_eq, not_true_eq_false, and_false, false_and, if_false, add_zero]
    apply Finset.sum_congr rfl
    intro k hk
    rw [Finset.mem_range] at hk
    rw [if_pos ⟨by omega, by omega⟩]
  rw [e4, e1, Finset.sum_range_add, e2]

/-- Replacing a spatial index by one with the same cosine, squared sine and product of sines
leaves the summand unchanged. -/
theorem summand_congr_third (tb : Tables α) (mu2 : α) (r12 : Int) (p q a b k k' : Nat)
    (hc : rd tb.pcI k' = rd tb.pcI k) (hs : rd tb.ptI k' * rd tb.ptI k' = rd tb.ptI k * rd tb.ptI k)
    (h2 : rd tb.p2tI k' = rd tb.p2tI k) :
    summand tb mu2 r12 p q a b k' = summand tb mu2 r12 p q a b k := by
  unfold summand num num_cons den dmp dmq Mp Mq
  rw [hc, hs, h2]

theorem term_eq_summand (tb : Tables α) (L : Nat) (mu2 : α) (r12 : Int) (p q a b c : Nat) :
    term tb L mu2 r12 p q a b c =
      permMult a b c • ((parMult L a b c : α) * summand tb mu2 r12 p q a b c) := by
  unfold term summand
  rw [nsmul_eq_mul]
  ring

end Folding

/-- The spatial tables are invariant under the reflection `k ↦ L - k` of the momentum index. -/
theorem tables_reflect (T L k : Nat) (hk0 : 0 < k) (hk : k < L) :
    rd (tables (Trig.mk Real.sin Real.cos Real.pi) T L).pcI (L - k) =
      rd (tables (Trig.mk Real.sin Real.cos Real.pi) T L).pcI k ∧
    rd (tables (Trig.mk Real.sin Real.cos Real.pi) T L).ptI (L - k) *
        rd (tables (Trig.mk Real.sin Real.cos Real.pi) T L).ptI (L - k) =
      rd (tables (Trig.mk Real.sin Real.cos Real.pi) T L).ptI k *
        rd (tables (Trig.mk Real.sin Real.cos Real.pi) T L).ptI k ∧
    rd (tables (Trig.mk Real.sin Real.cos Real.pi) T L).p2tI (L - k) =
      rd (tables (Trig.mk Real.sin Real.cos Real.pi) T L).p2tI k := by
  have hk' : L - k < L := by omega
  have hL : (L : ℝ) ≠ 0 := by
    have : 0 < L := by omega
    exact_mod_cast this.ne'
  have e : pI (Trig.mk Real.sin Real.cos Real.pi) L (L - k) =
      2 * Real.pi - pI (Trig.mk Real.sin Real.cos Real.pi) L k := by
    unfold pI
    rw [Nat.cast_sub hk.le]
    field_simp
    ring
  have hcos : Real.cos (pI (Trig.mk Real.sin Real.cos Real.pi) L (L - k)) =
      Real.cos (pI (Trig.mk Real.sin Real.cos Real.pi) L k) := by
    rw [e, Real.cos_two_pi_sub]
  have hsin : Real.sin (pI (Trig.mk Real.sin Real.cos Real.pi) L (L - k)) =
      -Real.sin (pI (Trig.mk Real.sin Real.cos Real.pi) L k) := by
    rw [e, Real.sin_two_pi_sub]
  unfold tables mkTables
  simp only [rd_map_range _ _ _ hk, rd_map_range _ _ _ hk', sqr]
  refine ⟨hcos, ?_, ?_⟩
  · rw [hsin]
    ring
  · rw [hsin]
    ring

end Vkvk

namespace Vkvk

/-- The summand over the reals is invariant under the reflection of any one spatial index. -/
theorem summand_reflect (T L : Nat) (mu2 : ℝ) (r12 : ℤ) (p q a b k : Nat) (hk0 : 0 < k)
    (hk : k < L) :
    summand (tables (Trig.mk Real.sin Real.cos Real.pi) T L) mu2 r12 p q a b (L - k) =
        summand (tables (Trig.mk Real.sin Real.cos Real.pi) T L) mu2 r12 p q a b k ∧
    summand (tables (Trig.mk Real.sin Real.cos Real.pi) T L) mu2 r12 p q a (L - k) b =
        summand (tables (Trig.mk Real.sin Real.cos Real.pi) T L) mu2 r12 p q a k b ∧
    summand (tables (Trig.mk Real.sin Real.cos Real.pi) T L) mu2 r12 p q (L - k) a b =
        summand (tables (Trig.mk Real.sin Real.cos Real.pi) T L) mu2 r12 p q k a b := by
  obtain ⟨hc, hs, h2⟩ := tables_reflect T L k hk0 hk
  have h3 : ∀ x y, summand (tables (Trig.mk Real.sin Real.cos Real.pi) T L) mu2 r12 p q x y
      (L - k) = summand (tables (Trig.mk Real.sin Real.cos Real.pi) T L) mu2 r12 p q x y k :=
    fun x y => summand_congr_third _ mu2 r12 p q x y k (L - k) hc hs h2
  refine ⟨h3 a b, ?_, ?_⟩
  · rw [summand_perm _ mu2 r12 p q (List.Perm.cons a (List.Perm.swap b (L - k) [])), h3,
      summand_perm _ mu2 r12 p q (List.Perm.cons a (List.Perm.swap k b []))]
  · have e1 : [L - k, a, b].Perm [a, b, L - k] := by
      exact @List.perm_append_comm Nat [L - k] [a, b]
    have e2 : [a, b, k].Perm [k, a, b] := by
      exact @List.perm_append_comm Nat [a, b] [k]
    rw [summand_perm _ mu2 r12 p q e1, h3, summand_perm _ mu2 r12 p q e2]

/-- Claim C12. For every even `L ≥ 2` and every pair `(iP0, iQ0)`, the kernel's symmetry-reduced
spatial sum `temp` (over `L/2 ≥ iP1 ≥ iP2 ≥ iP3 ≥ 0`, with the weights `parMult * permMult`)
equals the unreduced sum of numerator over `den` over all `(k1, k2, k3)` in `[0,L)^3`. -/
theorem temp_eq_fullSpatialSum (T L : Nat) (hL : 2 ≤ L) (heven : L % 2 = 0) (mu : ℝ) (r12 : ℤ)
    (p q : Nat) :
    temp (tables (Trig.mk Real.sin Real.cos Real.pi) T L) L (mu * mu) r12 p q =
      fullSpatialSum (tables (Trig.mk Real.sin Real.cos Real.pi) T L) L (mu * mu) r12 p q := by
  have hL2 : L = 2 * (L / 2) := by omega
  have hh : 1 ≤ L / 2 := by omega
  have hlt : ∀ k, k < L / 2 → k < L := fun k hk => by omega
  have step3 : ∀ k1 k2, (∑ k3 in Finset.range L,
        summand (tables (Trig.mk Real.sin Real.cos Real.pi) T L) (mu * mu) r12 p q k1 k2 k3) =
      ∑ c in Finset.range (L / 2 + 1),
        ((((if c ≠ 0 ∧ c ≠ L / 2 then 1 else 0) + 1 : Nat)) : ℝ) *
          summand (tables (Trig.mk Real.sin Real.cos Real.pi) T L) (mu * mu) r12 p q k1 k2 c :=
    fun k1 k2 => sum_fold_reflection _ L (L / 2) hL2 hh
      (fun k hk0 hk => (summand_reflect T L _ r12 p q k1 k2 k hk0 (hlt k hk)).1)
  have step2 : ∀ k1, (∑ k2 in Finset.range L, ∑ c in Finset.range (L / 2 + 1),
        ((((if c ≠ 0 ∧ c ≠ L / 2 then 1 else 0) + 1 : Nat)) : ℝ) *
          summand (tables (Trig.mk Real.sin Real.cos Real.pi) T L) (mu * mu) r12 p q k1 k2 c) =
      ∑ b in Finset.range (L / 2 + 1),
        ((((if b ≠ 0 ∧ b ≠ L / 2 then 1 else 0) + 1 : Nat)) : ℝ) *
          ∑ c in Finset.range (L / 2 + 1),
            ((((if c ≠ 0 ∧ c ≠ L / 2 then 1 else 0) + 1 : Nat)) : ℝ) *
              summand (tables (Trig.mk Real.sin Real.cos Real.pi) T L) (mu * mu) r12 p q k1 b c :=
    fun k1 => sum_fold_reflection _ L (L / 2) hL2 hh (fun k hk0 hk => by
      apply Finset.sum_congr rfl
      intro c _
      rw [(summand_reflect T L _ r12 p q k1 c k hk0 (hlt k hk)).2.1])
  have step1 : (∑ k1 in Finset.range L, ∑ b in Finset.range (L / 2 + 1),
        ((((if b ≠ 0 ∧ b ≠ L / 2 then 1 else 0) + 1 : Nat)) : ℝ) *
          ∑ c in Finset.range (L / 2 + 1),
            ((((if c ≠ 0 ∧ c ≠ L / 2 then 1 else 0) + 1 : Nat)) : ℝ) *
              summand (tables (Trig.mk Real.sin Real.cos Real.pi) T L) (mu * mu) r12 p q k1 b c) =
      ∑ a in Finset.range (L / 2 + 1),
        ((((if a ≠ 0 ∧ a ≠ L / 2 then 1 else 0) + 1 : Nat)) : ℝ) *
          ∑ b in Finset.range (L / 2 + 1),
            ((((if b ≠ 0 ∧ b ≠ L / 2 then 1 else 0) + 1 : Nat)) : ℝ) *
              ∑ c in Finset.range (L / 2 + 1),
                ((((if c ≠ 0 ∧ c ≠ L / 2 then 1 else 0) + 1 : Nat)) : ℝ) *
                  summand (tables (Trig.mk Real.sin Real.cos Real.pi) T L) (mu * mu) r12 p q
                    a b c :=
    sum_fold_reflection _ L (L / 2) hL2 hh (fun k hk0 hk => by
      apply Finset.sum_congr rfl
      intro b _
      congr 1
      apply Finset.sum_congr rfl
      intro c _
      rw [(summand_reflect T L _ r12 p q b c k hk0 (hlt k hk)).2.2])
  have hcube := sum_cube_eq_sorted
    (fun a b c => (parMult L a b c : ℝ) *
      summand (tables (Trig.mk Real.sin Real.cos Real.pi) T L) (mu * mu) r12 p q a b c)
    (fun a b c => by
      show (parMult L a b c : ℝ) * _ = (parMult L b a c : ℝ) * _
      rw [summand_perm _ _ r12 p q (List.Perm.swap b a [c])]
      congr 2
      unfold parMult
      ring)
    (fun a b c => by
      show (parMult L a b c : ℝ) * _ = (parMult L a c b : ℝ) * _
      rw [summand_perm _ _ r12 p q (List.Perm.cons a (List.Perm.swap c b []))]
      congr 2
      unfold parMult
      ring)
    (fun x y hxy => by
      simp only [nsmul_eq_mul] at hxy
      have h6 : ((6 : ℕ) : ℝ) ≠ 0 := by norm_num
      exact mul_left_cancel₀ h6 hxy)
    (L / 2 + 1)
  unfold fullSpatialSum
  simp only [step3, step2, step1]
  rw [temp_eq_sum]
  simp only [term_eq_summand]
  rw [← hcube]
  apply Finset.sum_congr rfl
  intro a _
  rw [Finset.mul_sum]
  apply Finset.sum_congr rfl
  intro b _
  rw [Finset.mul_sum, Finset.mul_sum]
  apply Finset.sum_congr rfl
  intro c _
  unfold parMult
  push_cast
  ring

/-- Witness of `temp_eq_fullSpatialSum` at `T = 4`, `L = 4`, `mu = 1/10`, `r12 = 1`, `iP0 = 1`,
`iQ0 = 2`. -/
theorem temp_eq_fullSpatialSum_witness :
    temp (tables (Trig.mk Real.sin Real.cos Real.pi) 4 4) 4 (1 / 10 * (1 / 10)) 1 1 2 =
      fullSpatialSum (tables (Trig.mk Real.sin Real.cos Real.pi) 4 4) 4 (1 / 10 * (1 / 10)) 1
        1 2 :=
  temp_eq_fullSpatialSum 4 4 (by decide) (by decide) (1 / 10) 1 1 2

end Vkvk
